import Mathlib

/-!
Verification development for the animochat turn server (matchmaking service).

The definitions below are a shallow embedding of `src/matchmaking-service.ts`
and of the chat-server selector in `src/index.ts`.  The Redis store is
modelled as association lists (one per value kind, the key families being
disjoint by prefix); Redis SPOP returns a random member of a set, which we
resolve by popping the first element of the stored member list and
quantifying over stored orders.  JS strings compare by UTF-16 code units;
JS `Array.prototype.sort` on two elements swaps exactly when the comparator
is positive.  `crypto.createHash('sha1')` hashes the UTF-8 bytes of its
input.  All of this is modelled executably below.
-/

/-- Association-list lookup over string keys (the Redis keyspace). -/
def alookup {α : Type} : List (String × α) → String → Option α
  | [], _ => none
  | (k, v) :: rest, key => if k = key then some v else alookup rest key

/-- Association-list update: replace the first binding of `key`, else append. -/
def aset {α : Type} : List (String × α) → String → α → List (String × α)
  | [], key, v => [(key, v)]
  | (k, w) :: rest, key, v =>
      if k = key then (k, v) :: rest else (k, w) :: aset rest key v

/-- Association-list delete: remove every binding of `key`. -/
def adel {α : Type} : List (String × α) → String → List (String × α)
  | [], _ => []
  | (k, w) :: rest, key =>
      if k = key then adel rest key else (k, w) :: adel rest key

/-- A chat-session value stored under `chat_session:<chatId>`: either a
serialized session object (the only shape `storeChatSession` writes, which
`JSON.parse` recovers) or an arbitrary raw string that `JSON.parse` rejects. -/
structure SessionData where
  serverUrl : String
  participants : List String
deriving DecidableEq, Repr

/-- The string stored under a `chat_session` key, classified by parseability. -/
inductive ChatVal where
  | json (d : SessionData)
  | junk (raw : String)
deriving DecidableEq, Repr

/-- The shared Redis store.  The four key families live in disjoint maps:
plain sets (`interest:*`, `user_interests:*`, `all_interests`), the
`chat_session:*` strings, the `user_session:*` strings, and the `popular:*`
sorted sets (member, millisecond score). -/
structure RedisState where
  sets : List (String × List String)
  strs : List (String × ChatVal)
  umap : List (String × String)
  zsets : List (String × List (String × Nat))
deriving DecidableEq, Repr

/-- SMEMBERS: a missing key reads as the empty set. -/
def smembers (s : RedisState) (k : String) : List String :=
  (alookup s.sets k).getD []

/-- Write a whole member list; Redis never keeps an empty set, so an empty
list deletes the key. -/
def setMembers (s : RedisState) (k : String) (ms : List String) : RedisState :=
  if ms = [] then { s with sets := adel s.sets k }
  else { s with sets := aset s.sets k ms }

/-- SADD of a single member (no-op if already present). -/
def saddOne (s : RedisState) (k m : String) : RedisState :=
  let ms := smembers s k
  if m ∈ ms then s else setMembers s k (ms ++ [m])

/-- SREM of a single member. -/
def sremOne (s : RedisState) (k m : String) : RedisState :=
  setMembers s k ((smembers s k).filter (fun x => x != m))

/-- DEL of a set-valued key. -/
def delSet (s : RedisState) (k : String) : RedisState :=
  { s with sets := adel s.sets k }

/-- SPOP: remove and return one member (the head of the stored order). -/
def spop (s : RedisState) (k : String) : Option String × RedisState :=
  match smembers s k with
  | [] => (none, s)
  | m :: rest => (some m, setMembers s k rest)

/-- SET of a `chat_session` string. -/
def setStr (s : RedisState) (k : String) (v : ChatVal) : RedisState :=
  { s with strs := aset s.strs k v }

/-- DEL of a `chat_session` string. -/
def delStr (s : RedisState) (k : String) : RedisState :=
  { s with strs := adel s.strs k }

/-- SET of a `user_session` mapping. -/
def setUMap (s : RedisState) (k v : String) : RedisState :=
  { s with umap := aset s.umap k v }

/-- DEL of a `user_session` mapping. -/
def delUMap (s : RedisState) (k : String) : RedisState :=
  { s with umap := adel s.umap k }

/-- ZRANGE-with-scores view of a sorted set (missing key is empty). -/
def zmembers (s : RedisState) (k : String) : List (String × Nat) :=
  (alookup s.zsets k).getD []

/-- ZADD: insert the member or overwrite its score. -/
def zadd (s : RedisState) (k : String) (score : Nat) (m : String) : RedisState :=
  let ms := zmembers s k
  let ms2 := if ms.any (fun p => p.1 = m)
             then ms.map (fun p => if p.1 = m then (m, score) else p)
             else ms ++ [(m, score)]
  { s with zsets := aset s.zsets k ms2 }

/-- ZCARD. -/
def zcard (s : RedisState) (k : String) : Nat :=
  (zmembers s k).length

/-- ZREMRANGEBYSCORE key 0 hi: drop every member whose score is at most `hi`
(scores are nonnegative); Redis deletes a sorted set that becomes empty. -/
def zremUpTo (s : RedisState) (k : String) (hi : Nat) : RedisState :=
  let ms := (zmembers s k).filter (fun p => hi < p.2)
  if ms = [] then { s with zsets := adel s.zsets k }
  else { s with zsets := aset s.zsets k ms }

/-- JS `String.prototype.toUpperCase` restricted to the ASCII letters the
service's tags use. -/
def jsToUpper (s : String) : String :=
  String.mk (s.data.map Char.toUpper)

/-- The reserved wildcard tag (`WILDCARD_INTEREST` in the service). -/
def WILDCARD : String := "WILDCARD_ANY"

/-- `getInterestKey`: queue keys upper-case the tag. -/
def interestKey (i : String) : String := "interest:" ++ jsToUpper i

/-- `getPopularityKey`. -/
def popularityKey (i : String) : String := "popular:" ++ jsToUpper i

/-- `getAllInterestsKey`. -/
def allInterestsKey : String := "all_interests"

/-- `getChatSessionKey`. -/
def chatSessionKey (cid : String) : String := "chat_session:" ++ cid

/-- `getUserSessionKey`. -/
def userSessionKey (u : String) : String := "user_session:" ++ u

/-- `getUserInterestsKey`. -/
def userInterestsKey (u : String) : String := "user_interests:" ++ u

/-- `endChatSession(userId)`: read the user's mapping; JS treats both a
missing value and the empty string as falsy, so those return `false`
untouched.  A mapping to a missing (or empty, hence falsy) session record is
a stale mapping: it is deleted and `false` returned.  A record that fails
`JSON.parse` hits the catch block, which deletes the caller's mapping and
returns `false`.  Otherwise the record and every participant's mapping are
deleted and `true` returned. -/
def endChatSession (s : RedisState) (u : String) : Bool × RedisState :=
  match alookup s.umap (userSessionKey u) with
  | none => (false, s)
  | some cid =>
    if cid = "" then (false, s)
    else
      match alookup s.strs (chatSessionKey cid) with
      | none => (false, delUMap s (userSessionKey u))
      | some v =>
        if v = ChatVal.junk "" then (false, delUMap s (userSessionKey u))
        else
          match v with
          | ChatVal.junk _ => (false, delUMap s (userSessionKey u))
          | ChatVal.json d =>
              let s1 := delStr s (chatSessionKey cid)
              let s2 := d.participants.foldl
                (fun st p => delUMap st (userSessionKey p)) s1
              (true, s2)

/-- The view `getSessionForUser` returns on success. -/
structure SessionView where
  chatId : String
  serverUrl : String
  participants : List String
deriving DecidableEq, Repr

/-- `getSessionForUser(userId)`: `None` on a missing (or falsy) mapping; on a
dangling mapping (record missing or the falsy empty string) delete the stale
mapping and return `None`; on a parse error return `None` leaving the store
untouched; otherwise return the record. -/
def getSessionForUser (s : RedisState) (u : String) :
    Option SessionView × RedisState :=
  match alookup s.umap (userSessionKey u) with
  | none => (none, s)
  | some cid =>
    if cid = "" then (none, s)
    else
      match alookup s.strs (chatSessionKey cid) with
      | none => (none, delUMap s (userSessionKey u))
      | some v =>
        if v = ChatVal.junk "" then (none, delUMap s (userSessionKey u))
        else
          match v with
          | ChatVal.junk _ => (none, s)
          | ChatVal.json d => (some ⟨cid, d.serverUrl, d.participants⟩, s)

/-- `storeChatSession`: write the session record, then map each participant
to the chat id. -/
def storeChatSession (s : RedisState) (cid url : String)
    (participants : List String) : RedisState :=
  let s1 := setStr s (chatSessionKey cid) (ChatVal.json ⟨url, participants⟩)
  participants.foldl (fun st p => setUMap st (userSessionKey p) cid) s1

/-- `removeUserFromQueue(userId)`: look up the user's enqueued interests; if
none, no-op; otherwise remove the user from each listed interest queue and
delete the `user_interests` key. -/
def removeUserFromQueue (s : RedisState) (u : String) : RedisState :=
  let interests := smembers s (userInterestsKey u)
  if interests = [] then s
  else
    let s2 := interests.foldl (fun st i => sremOne st (interestKey i) u) s
    delSet s2 (userInterestsKey u)

/-- UTF-8 encoding of one Unicode scalar value (what `crypto.createHash`
feeds to SHA-1 for a JS string). -/
def encodeUtf8Char (c : Char) : List Nat :=
  let n := c.toNat
  if n < 128 then [n]
  else if n < 2048 then [192 + n / 64, 128 + n % 64]
  else if n < 65536 then [224 + n / 4096, 128 + (n / 64) % 64, 128 + n % 64]
  else [240 + n / 262144, 128 + (n / 4096) % 64, 128 + (n / 64) % 64, 128 + n % 64]

/-- UTF-8 bytes of a string. -/
def utf8Bytes (s : String) : List Nat :=
  (s.data.map encodeUtf8Char).join

/-- Arithmetic modulo 2^32 (the SHA-1 word size). -/
def mask32 (n : Nat) : Nat := n % 4294967296

/-- Rotate a 32-bit word left by `k`. -/
def rotl (k n : Nat) : Nat :=
  mask32 (Nat.lor (mask32 (n <<< k)) (n >>> (32 - k)))

/-- Big-endian bytes of a 32-bit word. -/
def be32 (n : Nat) : List Nat :=
  [(n >>> 24) % 256, (n >>> 16) % 256, (n >>> 8) % 256, n % 256]

/-- Big-endian bytes of a 64-bit word. -/
def be64 (n : Nat) : List Nat := be32 (n >>> 32) ++ be32 n

/-- SHA-1 padding: append 0x80, zero-pad to 56 mod 64, append the bit length. -/
def sha1Pad (msg : List Nat) : List Nat :=
  let len := msg.length
  let z := (119 - len % 64) % 64
  msg ++ (128 :: List.replicate z 0) ++ be64 (len * 8)

/-- Split the padded message into 64-byte chunks. -/
def chunks64 (l : List Nat) : List (List Nat) :=
  if h : l = [] then []
  else (l.take 64) :: chunks64 (l.drop 64)
termination_by l.length
decreasing_by
  simp only [List.length_drop]
  have : l.length ≠ 0 := fun hl => h (List.length_eq_zero.mp hl)
  omega

/-- Big-endian 32-bit words of a chunk. -/
def toWords : List Nat → List Nat
  | b0 :: b1 :: b2 :: b3 :: rest =>
      (((b0 * 256 + b1) * 256 + b2) * 256 + b3) :: toWords rest
  | _ => []

/-- One step of the SHA-1 message-schedule extension, on the reversed word
list: `w[i] = rotl1 (w[i-3] xor w[i-8] xor w[i-14] xor w[i-16])`. -/
def extendStep (rws : List Nat) : List Nat :=
  let a := rws.getD 2 0
  let b := rws.getD 7 0
  let c := rws.getD 13 0
  let d := rws.getD 15 0
  rotl 1 (Nat.xor (Nat.xor a b) (Nat.xor c d)) :: rws

/-- Iterate the schedule extension. -/
def extendIter (rws : List Nat) : Nat → List Nat
  | 0 => rws
  | n + 1 => extendIter (extendStep rws) n

/-- The 80-word message schedule of one chunk. -/
def schedule (chunk : List Nat) : List Nat :=
  (extendIter (toWords chunk).reverse 64).reverse

/-- The SHA-1 round function. -/
def sha1F (t b c d : Nat) : Nat :=
  if t < 20 then Nat.lor (Nat.land b c) (Nat.land (Nat.xor b 4294967295) d)
  else if t < 40 then Nat.xor (Nat.xor b c) d
  else if t < 60 then Nat.lor (Nat.lor (Nat.land b c) (Nat.land b d)) (Nat.land c d)
  else Nat.xor (Nat.xor b c) d

/-- The SHA-1 round constants. -/
def sha1K (t : Nat) : Nat :=
  if t < 20 then 1518500249
  else if t < 40 then 1859775393
  else if t < 60 then 2400959708
  else 3395469782

/-- The 80 compression rounds over the schedule. -/
def sha1Rounds (t a b c d e : Nat) : List Nat → Nat × Nat × Nat × Nat × Nat
  | [] => (a, b, c, d, e)
  | w :: ws =>
      let temp := mask32 (rotl 5 a + sha1F t b c d + e + sha1K t + w)
      sha1Rounds (t + 1) temp a (rotl 30 b) c d ws

/-- Process one 64-byte chunk. -/
def sha1Chunk (h : Nat × Nat × Nat × Nat × Nat) (chunk : List Nat) :
    Nat × Nat × Nat × Nat × Nat :=
  let (h0, h1, h2, h3, h4) := h
  let (a, b, c, d, e) := sha1Rounds 0 h0 h1 h2 h3 h4 (schedule chunk)
  (mask32 (h0 + a), mask32 (h1 + b), mask32 (h2 + c),
   mask32 (h3 + d), mask32 (h4 + e))

/-- SHA-1 of a byte list, as the five state words. -/
def sha1Words (msg : List Nat) : Nat × Nat × Nat × Nat × Nat :=
  (chunks64 (sha1Pad msg)).foldl sha1Chunk
    (1732584193, 4023233417, 2562383102, 271733878, 3285377520)

/-- A lower-case hex digit. -/
def hexDigit (n : Nat) : Char :=
  if n < 10 then Char.ofNat (48 + n) else Char.ofNat (87 + n)

/-- Eight hex digits of a 32-bit word. -/
def hex8 (w : Nat) : List Char :=
  [hexDigit ((w >>> 28) % 16), hexDigit ((w >>> 24) % 16),
   hexDigit ((w >>> 20) % 16), hexDigit ((w >>> 16) % 16),
   hexDigit ((w >>> 12) % 16), hexDigit ((w >>> 8) % 16),
   hexDigit ((w >>> 4) % 16), hexDigit (w % 16)]

/-- SHA-1 hex digest of a byte list (`digest('hex')`). -/
def sha1Hex (msg : List Nat) : String :=
  let (h0, h1, h2, h3, h4) := sha1Words msg
  String.mk (hex8 h0 ++ hex8 h1 ++ hex8 h2 ++ hex8 h3 ++ hex8 h4)

/-- UTF-16 code units of one Unicode scalar value (JS strings compare by
these units). -/
def utf16Units (c : Char) : List Nat :=
  let n := c.toNat
  if n < 65536 then [n]
  else [55296 + (n - 65536) / 1024, 56320 + (n - 65536) % 1024]

/-- UTF-16 code units of a character list. -/
def utf16L (l : List Char) : List Nat :=
  (l.map utf16Units).join

/-- UTF-16 code units of a string. -/
def utf16 (s : String) : List Nat := utf16L s.data

/-- Three-way comparison on naturals. -/
def natCmp (x y : Nat) : Ordering :=
  if x < y then Ordering.lt else if y < x then Ordering.gt else Ordering.eq

/-- Lexicographic comparison of code-unit sequences. -/
def lexCmpNat : List Nat → List Nat → Ordering
  | [], [] => Ordering.eq
  | [], _ :: _ => Ordering.lt
  | _ :: _, [] => Ordering.gt
  | x :: xs, y :: ys =>
      match natCmp x y with
      | Ordering.eq => lexCmpNat xs ys
      | o => o

/-- The JS default string comparison (UTF-16 code-unit order). -/
def jsCompare (a b : String) : Ordering := lexCmpNat (utf16 a) (utf16 b)

/-- `[a, b].sort()` with the default comparator: swap exactly when `a > b`. -/
def jsSort2 (a b : String) : List String :=
  if jsCompare a b = Ordering.gt then [b, a] else [a, b]

/-- `join('-')`. -/
def joinDash : List String → String
  | [] => ""
  | [x] => x
  | x :: rest => x ++ "-" ++ joinDash rest

/-- The chat id minted at pair formation:
`createHash('sha1').update([a,b].sort().join('-')).digest('hex')`. -/
def chatIdFor (a b : String) : String :=
  sha1Hex (utf8Bytes (joinDash (jsSort2 a b)))

/-- The outcome of `findOrQueueUser`: a synchronous match, or `null`
(the caller is now waiting). -/
inductive Outcome where
  | matched (partner : String) (interests : List String)
      (chatId : String) (url : String)
  | waiting
deriving DecidableEq, Repr

/-- The common-interest intersection of the direct-match path:
`matchedUserInterests.filter(i => currentUserInterestsSet.has(i))`. -/
def commonInterestsOf (matchedInterests callerInterests : List String) :
    List String :=
  matchedInterests.filter (fun t => callerInterests.contains t)

/-- The result of scanning a list of interest queues. -/
inductive ScanRes where
  | found (partner : String) (common : List String) (st : RedisState)
  | exhausted (st : RedisState)
deriving Repr

/-- Step 1 of the standard path: pop each of the caller's (shuffled) interest
queues.  A popped non-self id with an empty common-interest intersection is
pushed back and the scan continues; a popped self id is pushed back; on a
real match the popped user is removed from every queue in its
`user_interests` and that key is deleted.  (JS truthiness: an empty-string
member is neither matched nor pushed back.) -/
def scanOwn (userId : String) (callerInterests : List String) :
    List String → RedisState → ScanRes
  | [], s => ScanRes.exhausted s
  | i :: rest, s =>
    match spop s (interestKey i) with
    | (none, s1) => scanOwn userId callerInterests rest s1
    | (some x, s1) =>
      if x ≠ "" ∧ x ≠ userId then
        let mi := smembers s1 (userInterestsKey x)
        let common := commonInterestsOf mi callerInterests
        if common = [] then
          scanOwn userId callerInterests rest (saddOne s1 (interestKey i) x)
        else
          let s2 := mi.foldl (fun st t => sremOne st (interestKey t) x) s1
          ScanRes.found x common (delSet s2 (userInterestsKey x))
      else if x ≠ "" then
        scanOwn userId callerInterests rest (saddOne s1 (interestKey i) x)
      else scanOwn userId callerInterests rest s1

/-- The wildcard caller's scan over `all_interests` (skipping the wildcard
token); a popped non-self id is fully cleaned up and returned with the
matched tag as the common-interest context. -/
def scanAll (userId : String) : List String → RedisState → ScanRes
  | [], s => ScanRes.exhausted s
  | i :: rest, s =>
    if i = WILDCARD then scanAll userId rest s
    else
      match spop s (interestKey i) with
      | (none, s1) => scanAll userId rest s1
      | (some x, s1) =>
        if x ≠ "" ∧ x ≠ userId then
          let mi := smembers s1 (userInterestsKey x)
          let s2 := mi.foldl (fun st t => sremOne st (interestKey t) x) s1
          ScanRes.found x [i] (delSet s2 (userInterestsKey x))
        else if x ≠ "" then
          scanAll userId rest (saddOne s1 (interestKey i) x)
        else scanAll userId rest s1

/-- Pair formation: mint the chat id, persist the session for both
participants, and return the `Matched` outcome. -/
def pairForm (s : RedisState) (url userId partner : String)
    (common : List String) : Outcome × RedisState :=
  let cid := chatIdFor userId partner
  (Outcome.matched partner common cid url,
   storeChatSession s cid url [userId, partner])

/-- Record popularity and tag discovery for an interest-bearing caller:
for each tag, `ZADD popular:<TAG> now userId` and `SADD all_interests tag`. -/
def recordPopularity (s : RedisState) (u : String) (now : Nat)
    (tags : List String) : RedisState :=
  tags.foldl (fun st i => saddOne (zadd st (popularityKey i) now u)
    allInterestsKey i) s

/-- Step 3 of the standard path: enqueue the caller into each interest queue
and record the full tag list under `user_interests:<userId>`. -/
def enqueueStd (userId : String) (tags : List String) (s : RedisState) :
    Outcome × RedisState :=
  let s1 := tags.foldl (fun st i => saddOne st (interestKey i) userId) s
  let s2 := tags.foldl (fun st i => saddOne st (userInterestsKey userId) i) s1
  (Outcome.waiting, s2)

/-- Step 2 of the standard path: try the wildcard queue, then enqueue. -/
def standardTail (url userId : String) (shuffled : List String)
    (s : RedisState) : Outcome × RedisState :=
  match spop s (interestKey WILDCARD) with
  | (some x, s1) =>
    if x ≠ "" ∧ x ≠ userId then
      pairForm (delSet s1 (userInterestsKey x)) url userId x shuffled
    else
      enqueueStd userId shuffled (if x ≠ "" then saddOne s1 (interestKey WILDCARD) x else s1)
  | (none, s1) => enqueueStd userId shuffled s1

/-- Steps 2-3 of the wildcard path: scan all known interest queues, else
enqueue into the wildcard queue. -/
def wildcardTail (url userId : String) (s : RedisState) :
    Outcome × RedisState :=
  match scanAll userId (smembers s allInterestsKey) s with
  | ScanRes.found x common st => pairForm st url userId x common
  | ScanRes.exhausted st =>
      let st1 := saddOne st (interestKey WILDCARD) userId
      let st2 := saddOne st1 (userInterestsKey userId) WILDCARD
      let st3 := saddOne st2 allInterestsKey WILDCARD
      (Outcome.waiting, st3)

/-- `findOrQueueUser(userId, interests)`.  The prior session is ended first.
`interests.sort(() => Math.random() - 0.5)` shuffles the tag array in place;
the shuffle outcome is the explicit `shuffled` argument (theorems either
quantify over permutations or fix one), and every use of the array after the
sort (scan order, intersection set, wildcard-match context, enqueue) sees the
shuffled contents, while the popularity pipeline runs before the sort.  The
assigned chat-server URL is the injected selector's answer `url`. -/
def findOrQueueUser (url userId : String) (interests shuffled : List String)
    (now : Nat) (s0 : RedisState) : Outcome × RedisState :=
  let s := (endChatSession s0 userId).2
  if interests = [] then
    match spop s (interestKey WILDCARD) with
    | (some x, s1) =>
      if x ≠ "" ∧ x ≠ userId then
        pairForm (delSet s1 (userInterestsKey x)) url userId x []
      else
        wildcardTail url userId (if x ≠ "" then saddOne s1 (interestKey WILDCARD) x else s1)
    | (none, s1) => wildcardTail url userId s1
  else
    let s1 := recordPopularity s userId now interests
    match scanOwn userId shuffled shuffled s1 with
    | ScanRes.found x common st => pairForm st url userId x common
    | ScanRes.exhausted st => standardTail url userId shuffled st

/-- The 10-minute popularity window, in milliseconds. -/
def windowMs : Nat := 600000

/-- Structural `startsWith` on characters (the `SCAN MATCH popular:*`
pattern). -/
def startsWithChars : List Char → List Char → Bool
  | [], _ => true
  | _ :: _, [] => false
  | p :: ps, c :: cs => p = c && startsWithChars ps cs

/-- The keys the popularity scan visits. -/
def popKeys (s : RedisState) : List String :=
  (s.zsets.map (fun p => p.1)).filter
    (fun k => startsWithChars "popular:".data k.data)

/-- Structural split on a separator character (JS `String.prototype.split`). -/
def splitOnChar (sep : Char) : List Char → List (List Char)
  | [] => [[]]
  | c :: cs =>
    let rest := splitOnChar sep cs
    if c = sep then [] :: rest
    else
      match rest with
      | [] => [[c]]
      | r :: rs => (c :: r) :: rs

/-- `current.split(':')[1] || 'UNKNOWN'`: the text after the first colon,
with the empty string (falsy) and a missing index both giving `UNKNOWN`. -/
def splitTag (k : String) : String :=
  match (splitOnChar ':' k.data).drop 1 with
  | [] => "UNKNOWN"
  | t :: _ => if t = [] then "UNKNOWN" else String.mk t

/-- Stable descending insertion by count (JS `sort((a,b) => b.count - a.count)`
is a stable sort). -/
def insertByCountDesc (x : String × Nat) :
    List (String × Nat) → List (String × Nat)
  | [] => [x]
  | y :: ys => if y.2 < x.2 then x :: y :: ys else y :: insertByCountDesc x ys

/-- Stable sort by count descending. -/
def sortByCountDesc (l : List (String × Nat)) : List (String × Nat) :=
  l.foldl (fun acc x => insertByCountDesc x acc) []

/-- `getPopularInterests(topN)`: scan `popular:*`; for each key remove the
members with score at most `now - 10 min` and read the remaining
cardinality in one pipeline; keep the positive counts; sort by count
descending and take the top N. -/
def getPopularInterests (topN now : Nat) (s : RedisState) :
    List (String × Nat) × RedisState :=
  let keys := popKeys s
  if keys = [] then ([], s)
  else
    let s1 := keys.foldl (fun st k => zremUpTo st k (now - windowMs)) s
    let counted := keys.filterMap (fun k =>
      let c := zcard s1 k
      if 0 < c then some (splitTag k, c) else none)
    ((sortByCountDesc counted).take topN, s1)

/-- Remove the members with score strictly below `lo` (what the spec's
wording asks for, in contrast to the code's inclusive removal). -/
def zremStrictlyBelow (s : RedisState) (k : String) (lo : Nat) : RedisState :=
  let ms := (zmembers s k).filter (fun p => lo ≤ p.2)
  if ms = [] then { s with zsets := adel s.zsets k }
  else { s with zsets := aset s.zsets k ms }

/-- Modelled from the spec: `popularInterests(topN)` per the specification
text of claim C4 - it removes exactly the members with score strictly less
than `now - 10 min`, applies the configured deny-list filter by tag, and
returns the top N surviving pairs by count descending.  No deny-list exists
anywhere in the source; this definition exists only to compare the spec's
words with the code's `getPopularInterests`. -/
def specGetPopularInterests (denyList : List String) (topN now : Nat)
    (s : RedisState) : List (String × Nat) × RedisState :=
  let keys := popKeys s
  if keys = [] then ([], s)
  else
    let s1 := keys.foldl (fun st k => zremStrictlyBelow st k (now - windowMs)) s
    let counted := keys.filterMap (fun k =>
      let c := zcard s1 k
      if 0 < c then some (splitTag k, c) else none)
    let kept := counted.filter (fun p => !(denyList.contains p.1))
    ((sortByCountDesc kept).take topN, s1)

/-- The chat-server selector's process-local state
(`CHAT_SERVER_URLS`, `lastChatServersUpdate`, `currentServerIndex`). -/
structure SelectorState where
  urls : List String
  lastUpdate : Nat
  index : Nat
deriving DecidableEq, Repr

/-- `CHAT_SERVERS_REFRESH_INTERVAL = 60 * 1000`. -/
def REFRESH_INTERVAL : Nat := 60000

/-- `getNextChatServer` from `src/index.ts`: refresh the cached URL list from
discovery when it is empty or stale (strictly more than 60 s old); throw if
discovery returns no servers; otherwise read `urls[index]` (which JS lets be
`undefined` when the index is out of bounds - modelled as `none`) and advance
the index modulo the current list length.  `fetched` is the list the
discovery source would return if consulted now. -/
def getNextChatServer (now : Nat) (fetched : List String)
    (st : SelectorState) : Except String (Option String × SelectorState) :=
  let st1 := if st.urls = [] ∨ REFRESH_INTERVAL < now - st.lastUpdate
             then { st with urls := fetched, lastUpdate := now }
             else st
  if (st.urls = [] ∨ REFRESH_INTERVAL < now - st.lastUpdate) ∧ fetched = [] then
    Except.error "No chat servers available. Please check the service discovery configuration."
  else if st1.urls = [] then
    Except.error "No chat servers available to connect to."
  else
    Except.ok (st1.urls.get? st1.index,
      { st1 with index := (st1.index + 1) % st1.urls.length })

/-- JS `String.prototype.trim` restricted to the common ASCII whitespace. -/
def jsTrim (s : String) : String :=
  let ws := fun c : Char => c = ' ' ∨ c = '\t' ∨ c = '\n' ∨ c = '\r'
  String.mk (((s.data.dropWhile ws).reverse.dropWhile ws).reverse)

/-- The `/matchmaking` route's interest parsing
(`interests.split(',').map(i => i.trim()).filter(i => i.length > 0)`):
tags are trimmed and empty entries dropped - nothing upper-cases them. -/
def routeParseInterests (csv : String) : List String :=
  ((splitOnChar ',' csv.data).map (fun l => jsTrim (String.mk l))).filter
    (fun t => t ≠ "")

/-- Two tags agree up to letter case and surrounding whitespace. -/
def sameTagModCase (a b : String) : Bool :=
  jsToUpper (jsTrim a) == jsToUpper (jsTrim b)

/-- The first-occurrence deduplication a multi-member SADD performs on its
argument list when the target set starts empty. -/
def sdedup (l : List String) : List String :=
  l.foldl (fun acc m => if m ∈ acc then acc else acc ++ [m]) []

theorem alookup_aset {α : Type} (l : List (String × α)) (k : String) (v : α)
    (q : String) :
    alookup (aset l k v) q = if q = k then some v else alookup l q := by
  induction l with
  | nil =>
    rcases eq_or_ne q k with h | h
    · subst h; simp [aset, alookup]
    · simp [aset, alookup, h, Ne.symm h]
  | cons p rest ih =>
    obtain ⟨pk, pv⟩ := p
    rcases eq_or_ne pk k with h1 | h1
    · subst h1
      rcases eq_or_ne q pk with h2 | h2
      · subst h2; simp [aset, alookup]
      · simp [aset, alookup, h2, Ne.symm h2]
    · rcases eq_or_ne pk q with h2 | h2
      · have hqk : ¬q = k := fun hh => h1 (h2.trans hh)
        simp [aset, alookup, h1, h2, hqk]
      · simp [aset, alookup, h1, h2, ih]
theorem alookup_adel {α : Type} (l : List (String × α)) (k q : String) :
    alookup (adel l k) q = if q = k then none else alookup l q := by
  induction l with
  | nil => simp [adel, alookup]
  | cons p rest ih =>
    obtain ⟨pk, pv⟩ := p
    rcases eq_or_ne pk k with h1 | h1
    · subst h1
      rcases eq_or_ne q pk with h2 | h2
      · subst h2; simp [adel, alookup, ih]
      · simp [adel, alookup, h2, Ne.symm h2, ih]
    · rcases eq_or_ne pk q with h2 | h2
      · have hqk : ¬q = k := fun hh => h1 (h2.trans hh)
        simp [adel, alookup, h1, h2, hqk]
      · simp [adel, alookup, h1, h2, ih]

theorem alookup_adel_none {α : Type} (l : List (String × α)) (k q : String)
    (h : alookup l q = none) : alookup (adel l k) q = none := by
  rw [alookup_adel]
  rcases eq_or_ne q k with hq | hq <;> simp [hq, h]

theorem smembers_setMembers (s : RedisState) (k : String) (ms : List String)
    (q : String) :
    smembers (setMembers s k ms) q = if q = k then ms else smembers s q := by
  by_cases h : ms = []
  · subst h
    simp [setMembers, smembers, alookup_adel]
    by_cases hq : q = k <;> simp [hq]
  · simp [setMembers, h, smembers, alookup_aset]
    by_cases hq : q = k <;> simp [hq]

theorem smembers_saddOne (s : RedisState) (k m : String) (q : String) :
    smembers (saddOne s k m) q =
      if q = k then
        (if m ∈ smembers s k then smembers s k else smembers s k ++ [m])
      else smembers s q := by
  unfold saddOne
  by_cases hm : m ∈ smembers s k
  · simp only [hm, if_pos]
    rcases eq_or_ne q k with hq | hq <;> simp [hq]
  · simp [hm, smembers_setMembers]

theorem smembers_sremOne (s : RedisState) (k m : String) (q : String) :
    smembers (sremOne s k m) q =
      if q = k then (smembers s k).filter (fun x => x != m)
      else smembers s q := by
  unfold sremOne
  rw [smembers_setMembers]

theorem smembers_delSet (s : RedisState) (k q : String) :
    smembers (delSet s k) q = if q = k then [] else smembers s q := by
  unfold delSet smembers
  simp only [alookup_adel]
  by_cases hq : q = k <;> simp [hq]

theorem spop_of_cons (s : RedisState) (k m : String) (rest : List String)
    (h : smembers s k = m :: rest) :
    spop s k = (some m, setMembers s k rest) := by
  unfold spop
  rw [h]

theorem spop_of_nil (s : RedisState) (k : String)
    (h : smembers s k = []) : spop s k = (none, s) := by
  unfold spop
  rw [h]

theorem setMembers_umap (s : RedisState) (k : String) (ms : List String) :
    (setMembers s k ms).umap = s.umap := by
  unfold setMembers; split <;> rfl

theorem setMembers_strs (s : RedisState) (k : String) (ms : List String) :
    (setMembers s k ms).strs = s.strs := by
  unfold setMembers; split <;> rfl

theorem setMembers_zsets (s : RedisState) (k : String) (ms : List String) :
    (setMembers s k ms).zsets = s.zsets := by
  unfold setMembers; split <;> rfl

theorem saddOne_umap (s : RedisState) (k m : String) :
    (saddOne s k m).umap = s.umap := by
  unfold saddOne
  by_cases hm : m ∈ smembers s k <;> simp [hm, setMembers_umap]

theorem saddOne_strs (s : RedisState) (k m : String) :
    (saddOne s k m).strs = s.strs := by
  unfold saddOne
  by_cases hm : m ∈ smembers s k <;> simp [hm, setMembers_strs]

theorem saddOne_zsets (s : RedisState) (k m : String) :
    (saddOne s k m).zsets = s.zsets := by
  unfold saddOne
  by_cases hm : m ∈ smembers s k <;> simp [hm, setMembers_zsets]

theorem sremOne_umap (s : RedisState) (k m : String) :
    (sremOne s k m).umap = s.umap := by
  unfold sremOne; rw [setMembers_umap]

theorem sremOne_strs (s : RedisState) (k m : String) :
    (sremOne s k m).strs = s.strs := by
  unfold sremOne; rw [setMembers_strs]

theorem sremOne_zsets (s : RedisState) (k m : String) :
    (sremOne s k m).zsets = s.zsets := by
  unfold sremOne; rw [setMembers_zsets]

theorem zadd_sets (s : RedisState) (k : String) (sc : Nat) (m : String) :
    (zadd s k sc m).sets = s.sets := rfl

theorem zadd_umap (s : RedisState) (k : String) (sc : Nat) (m : String) :
    (zadd s k sc m).umap = s.umap := rfl

theorem zadd_strs (s : RedisState) (k : String) (sc : Nat) (m : String) :
    (zadd s k sc m).strs = s.strs := rfl

theorem delUMap_sets (s : RedisState) (k : String) :
    (delUMap s k).sets = s.sets := rfl

theorem delStr_sets (s : RedisState) (k : String) :
    (delStr s k).sets = s.sets := rfl

theorem setUMap_sets (s : RedisState) (k v : String) :
    (setUMap s k v).sets = s.sets := rfl

theorem setStr_sets (s : RedisState) (k : String) (v : ChatVal) :
    (setStr s k v).sets = s.sets := rfl

theorem foldl_delUMap_sets (ps : List String) (s : RedisState) :
    (ps.foldl (fun st p => delUMap st (userSessionKey p)) s).sets = s.sets := by
  induction ps generalizing s with
  | nil => rfl
  | cons p rest ih => simp [List.foldl_cons, ih, delUMap_sets]

theorem foldl_setUMap_sets (ps : List String) (s : RedisState) (cid : String) :
    (ps.foldl (fun st p => setUMap st (userSessionKey p) cid) s).sets =
      s.sets := by
  induction ps generalizing s with
  | nil => rfl
  | cons p rest ih => simp [List.foldl_cons, ih, setUMap_sets]

theorem endChatSession_sets (s : RedisState) (u : String) :
    ((endChatSession s u).2).sets = s.sets := by
  unfold endChatSession
  split
  · rfl
  · split
    · rfl
    · split
      · simp [delUMap_sets]
      · split
        · simp [delUMap_sets]
        · split
          · simp [delUMap_sets]
          · simp [foldl_delUMap_sets, delStr_sets]

theorem storeChatSession_sets (s : RedisState) (cid url : String)
    (ps : List String) :
    (storeChatSession s cid url ps).sets = s.sets := by
  unfold storeChatSession
  rw [foldl_setUMap_sets, setStr_sets]

theorem smembers_ext (s t : RedisState) (h : s.sets = t.sets) (k : String) :
    smembers s k = smembers t k := by
  unfold smembers; rw [h]

theorem string_ne_of_head (a b : String)
    (h : a.data.head? ≠ b.data.head?) : a ≠ b := by
  intro he; exact h (he ▸ rfl)

theorem head_of_append (p x : String) (c : Char) (rest : List Char)
    (hp : p.data = c :: rest) : (p ++ x).data.head? = some c := by
  have : (p ++ x).data = p.data ++ x.data := String.data_append p x
  rw [this, hp]
  rfl

theorem interestKey_ne_userInterestsKey (a b : String) :
    interestKey a ≠ userInterestsKey b := by
  apply string_ne_of_head
  unfold interestKey userInterestsKey
  rw [head_of_append "interest:" (jsToUpper a) 'i' "nterest:".data rfl]
  rw [head_of_append "user_interests:" b 'u' "ser_interests:".data rfl]
  simp

theorem interestKey_ne_allInterestsKey (a : String) :
    interestKey a ≠ allInterestsKey := by
  apply string_ne_of_head
  unfold interestKey
  rw [head_of_append "interest:" (jsToUpper a) 'i' "nterest:".data rfl]
  simp [allInterestsKey]

theorem userInterestsKey_ne_allInterestsKey (a : String) :
    userInterestsKey a ≠ allInterestsKey := by
  apply string_ne_of_head
  unfold userInterestsKey
  rw [head_of_append "user_interests:" a 'u' "ser_interests:".data rfl]
  simp [allInterestsKey]

theorem char_valid_nat (c : Char) :
    c.toNat < 55296 ∨ (57343 < c.toNat ∧ c.toNat < 1114112) := by
  have h := c.valid
  unfold UInt32.isValidChar Nat.isValidChar at h
  exact h

theorem char_toNat_inj (a b : Char) (h : a.toNat = b.toNat) : a = b :=
  Char.ext (UInt32.ext h)

theorem string_data_inj (a b : String) (h : a.data = b.data) : a = b := by
  cases a; cases b; exact congrArg String.mk h

theorem utf16Units_bmp (c : Char) (h : c.toNat < 65536) :
    utf16Units c = [c.toNat] := by
  unfold utf16Units
  simp [h]

theorem utf16Units_supp (c : Char) (h : ¬c.toNat < 65536) :
    utf16Units c =
      [55296 + (c.toNat - 65536) / 1024, 56320 + (c.toNat - 65536) % 1024] := by
  unfold utf16Units
  simp [h]

theorem utf16L_inj : ∀ l1 l2 : List Char, utf16L l1 = utf16L l2 → l1 = l2 := by
  intro l1
  induction l1 with
  | nil =>
    intro l2 h
    cases l2 with
    | nil => rfl
    | cons c2 t2 =>
      exfalso
      by_cases hb : c2.toNat < 65536
      · simp [utf16L, utf16Units_bmp c2 hb] at h
      · simp [utf16L, utf16Units_supp c2 hb] at h
  | cons c1 t1 ih =>
    intro l2 h
    cases l2 with
    | nil =>
      exfalso
      by_cases hb : c1.toNat < 65536
      · simp [utf16L, utf16Units_bmp c1 hb] at h
      · simp [utf16L, utf16Units_supp c1 hb] at h
    | cons c2 t2 =>
      have hv1 := char_valid_nat c1
      have hv2 := char_valid_nat c2
      by_cases hb1 : c1.toNat < 65536 <;> by_cases hb2 : c2.toNat < 65536
      · simp only [utf16L, List.map_cons, List.join_cons,
          utf16Units_bmp c1 hb1, utf16Units_bmp c2 hb2,
          List.cons_append, List.nil_append, List.cons.injEq] at h
        obtain ⟨he, hr⟩ := h
        rw [char_toNat_inj c1 c2 he, ih t2 hr]
      · exfalso
        simp only [utf16L, List.map_cons, List.join_cons,
          utf16Units_bmp c1 hb1, utf16Units_supp c2 hb2,
          List.cons_append, List.nil_append, List.cons.injEq] at h
        obtain ⟨he, _⟩ := h
        omega
      · exfalso
        simp only [utf16L, List.map_cons, List.join_cons,
          utf16Units_supp c1 hb1, utf16Units_bmp c2 hb2,
          List.cons_append, List.nil_append, List.cons.injEq] at h
        obtain ⟨he, _⟩ := h
        omega
      · simp only [utf16L, List.map_cons, List.join_cons,
          utf16Units_supp c1 hb1, utf16Units_supp c2 hb2,
          List.cons_append, List.nil_append, List.cons.injEq] at h
        obtain ⟨hhi, hlo, hr⟩ := h
        have he : c1.toNat = c2.toNat := by omega
        rw [char_toNat_inj c1 c2 he, ih t2 hr]

theorem utf16_inj (a b : String) (h : utf16 a = utf16 b) : a = b :=
  string_data_inj a b (utf16L_inj a.data b.data h)

theorem natCmp_swap (x y : Nat) : natCmp y x = (natCmp x y).swap := by
  unfold natCmp
  rcases Nat.lt_trichotomy x y with h | h | h
  · simp [h, Nat.lt_asymm h, Ordering.swap]
  · simp [h, Nat.lt_irrefl, Ordering.swap]
  · have hxy : ¬x < y := Nat.lt_asymm h
    simp [h, hxy, Nat.lt_irrefl, Ordering.swap]

theorem natCmp_eq (x y : Nat) (h : natCmp x y = Ordering.eq) : x = y := by
  unfold natCmp at h
  rcases Nat.lt_trichotomy x y with hl | hl | hl <;> simp [hl] at h <;> omega

theorem lexCmpNat_swap :
    ∀ xs ys : List Nat, lexCmpNat ys xs = (lexCmpNat xs ys).swap := by
  intro xs
  induction xs with
  | nil => intro ys; cases ys <;> rfl
  | cons x xs ih =>
    intro ys
    cases ys with
    | nil => rfl
    | cons y ys =>
      simp only [lexCmpNat, natCmp_swap x y]
      cases h : natCmp x y <;> simp [Ordering.swap, ih ys]

theorem lexCmpNat_eq :
    ∀ xs ys : List Nat, lexCmpNat xs ys = Ordering.eq → xs = ys := by
  intro xs
  induction xs with
  | nil => intro ys h; cases ys with
    | nil => rfl
    | cons y ys => simp [lexCmpNat] at h
  | cons x xs ih =>
    intro ys h
    cases ys with
    | nil => simp [lexCmpNat] at h
    | cons y ys =>
      simp only [lexCmpNat] at h
      cases hc : natCmp x y <;> rw [hc] at h
      · exact absurd h (by simp)
      · rw [natCmp_eq x y hc, ih ys h]
      · exact absurd h (by simp)

theorem jsSort2_comm (a b : String) : jsSort2 a b = jsSort2 b a := by
  unfold jsSort2 jsCompare
  rw [lexCmpNat_swap (utf16 a) (utf16 b)]
  cases h : lexCmpNat (utf16 a) (utf16 b) with
  | lt => simp [Ordering.swap]
  | gt => simp [Ordering.swap]
  | eq =>
    have : a = b := utf16_inj a b (lexCmpNat_eq _ _ h)
    subst this
    simp [Ordering.swap]

theorem chatIdFor_comm (a b : String) : chatIdFor a b = chatIdFor b a := by
  unfold chatIdFor
  rw [jsSort2_comm]

/-- Claim C3: whenever `findOrQueueUser` returns a `Matched` outcome, the
returned chatId is the SHA-1 hex digest of the two participant ids sorted
lexicographically (by UTF-16 code units, the JS default) and joined by a
dash, and that digest is invariant under swapping the two participants. -/
theorem c3_chatId_of_matched (url u : String) (interests shuffled : List String)
    (now : Nat) (s : RedisState) (p : String) (c : List String) (cid sv : String)
    (s2 : RedisState)
    (h : findOrQueueUser url u interests shuffled now s =
      (Outcome.matched p c cid sv, s2)) :
    cid = chatIdFor u p ∧ chatIdFor u p = chatIdFor p u := by
  refine ⟨?_, chatIdFor_comm u p⟩
  unfold findOrQueueUser wildcardTail standardTail pairForm enqueueStd at h
  dsimp only at h
  repeat' split at h
  all_goals
    first
    | (simp only [Prod.mk.injEq, Outcome.matched.injEq] at h
       obtain ⟨⟨hxp, -, hcid, -⟩, -⟩ := h
       rw [← hxp]
       exact hcid.symm)
    | (exact absurd h (by simp))

/-- A store holding one waiter `W` enqueued on tag `x`, used to exhibit a
concrete matched call. -/
def c3State : RedisState :=
  ⟨[("interest:X", ["W"]), ("user_interests:W", ["x"]), ("all_interests", ["x"])],
   [], [], []⟩

/-- Witness for claim C3: the concrete caller `A` with interest `x` matches
the waiter `W`, and the returned chatId is the participant-sorted digest,
which is symmetric in the pair. -/
theorem c3_chatId_witness :
    (findOrQueueUser "u0" "A" ["x"] ["x"] 7 c3State).fst =
      Outcome.matched "W" ["x"] (chatIdFor "A" "W") "u0" ∧
    chatIdFor "A" "W" = chatIdFor "W" "A" := by
  have h : findOrQueueUser "u0" "A" ["x"] ["x"] 7 c3State =
      (Outcome.matched "W" ["x"] (chatIdFor "A" "W") "u0",
       (findOrQueueUser "u0" "A" ["x"] ["x"] 7 c3State).snd) := rfl
  exact ⟨congrArg Prod.fst h,
    (c3_chatId_of_matched "u0" "A" ["x"] ["x"] 7 c3State "W" ["x"]
      (chatIdFor "A" "W") "u0" _ h).2⟩

/-- Claim C7: the chat-server selector can resolve successfully with an
out-of-bounds read.  From the state `urls = [u0, u1]`, `index = 1`,
`lastUpdate = 0`, a call at `now = 70 s` is stale, so the list is refreshed
to the single-element `[v0]`; the code then reads `urls[1]` of the new
one-element list, which is `undefined` (`none`), yet resolves successfully
- contradicting the claim that a successful `next()` always returns an
element of the current list with the read index in bounds. -/
theorem c7_out_of_bounds_read :
    getNextChatServer 70000 ["v0"] ⟨["u0", "u1"], 0, 1⟩ =
      Except.ok (none, ⟨["v0"], 70000, 0⟩) := by
  rfl

theorem delUMap_strs (s : RedisState) (k : String) :
    (delUMap s k).strs = s.strs := rfl

theorem delStr_umap (s : RedisState) (k : String) :
    (delStr s k).umap = s.umap := rfl

theorem foldl_delUMap_strs (ps : List String) (s : RedisState) :
    (ps.foldl (fun st p => delUMap st (userSessionKey p)) s).strs = s.strs := by
  induction ps generalizing s with
  | nil => rfl
  | cons p rest ih => simp [List.foldl_cons, ih, delUMap_strs]

theorem foldl_delUMap_none_preserved (ps : List String) (s : RedisState)
    (key : String) (h : alookup s.umap key = none) :
    alookup (ps.foldl (fun st p => delUMap st (userSessionKey p)) s).umap
      key = none := by
  induction ps generalizing s with
  | nil => exact h
  | cons p rest ih =>
    simp only [List.foldl_cons]
    exact ih (delUMap s (userSessionKey p)) (alookup_adel_none _ _ _ h)

theorem foldl_delUMap_mem_none (ps : List String) (s : RedisState)
    (q : String) (hq : q ∈ ps) :
    alookup (ps.foldl (fun st p => delUMap st (userSessionKey p)) s).umap
      (userSessionKey q) = none := by
  induction ps generalizing s with
  | nil => cases hq
  | cons p rest ih =>
    simp only [List.foldl_cons]
    rcases List.mem_cons.mp hq with h | h
    · subst h
      by_cases hmem : q ∈ rest
      · exact ih _ hmem
      · apply foldl_delUMap_none_preserved
        unfold delUMap
        simp [alookup_adel]
    · exact ih _ h

/-- Claim C5: `getSessionForUser` returns `None` when the user has no
session mapping; on a dangling mapping (the session record is missing) it
deletes the stale mapping and returns `None`; otherwise (the record is
present and parses) it returns the `{chatId, serverUrl, participants}`
record.  (The non-empty-string side conditions mirror JS truthiness; the
empty string never occurs as a stored chat id, which is a SHA-1 digest.) -/
theorem c5_getSessionForUser (s : RedisState) (u : String) :
    (alookup s.umap (userSessionKey u) = none →
      getSessionForUser s u = (none, s)) ∧
    (∀ cid, alookup s.umap (userSessionKey u) = some cid → cid ≠ "" →
      alookup s.strs (chatSessionKey cid) = none →
      getSessionForUser s u = (none, delUMap s (userSessionKey u))) ∧
    (∀ cid d, alookup s.umap (userSessionKey u) = some cid → cid ≠ "" →
      alookup s.strs (chatSessionKey cid) = some (ChatVal.json d) →
      getSessionForUser s u = (some ⟨cid, d.serverUrl, d.participants⟩, s)) := by
  refine ⟨?_, ?_, ?_⟩
  · intro h
    unfold getSessionForUser
    rw [h]
  · intro cid h hne hrec
    unfold getSessionForUser
    rw [h]
    simp [hne, hrec]
  · intro cid d h hne hrec
    unfold getSessionForUser
    rw [h]
    simp [hne, hrec]

/-- A store with user `u` mapped to a parseable session record `C`. -/
def c5State : RedisState :=
  ⟨[], [("chat_session:C", ChatVal.json ⟨"srv", ["u", "v"]⟩)],
   [("user_session:u", "C")], []⟩

/-- Witness for claim C5: on the concrete store the session view is
returned unchanged. -/
theorem c5_witness :
    getSessionForUser c5State "u" = (some ⟨"C", "srv", ["u", "v"]⟩, c5State) :=
  (c5_getSessionForUser c5State "u").2.2 "C" ⟨"srv", ["u", "v"]⟩ rfl
    (by decide) rfl

/-- Claim C6: for a user holding an active session whose record exists and
parses (and lists the user among its participants, as every stored record
does), `endChatSession` returns `true` then `false` on two successive
calls; after the first call the session record and every participant's
`user_session` mapping are gone. -/
theorem c6_end_twice (s : RedisState) (u cid : String) (d : SessionData)
    (h1 : alookup s.umap (userSessionKey u) = some cid) (h2 : cid ≠ "")
    (h3 : alookup s.strs (chatSessionKey cid) = some (ChatVal.json d))
    (hp : u ∈ d.participants) :
    (endChatSession s u).fst = true ∧
    (endChatSession (endChatSession s u).snd u).fst = false ∧
    alookup (endChatSession s u).snd.strs (chatSessionKey cid) = none ∧
    ∀ q ∈ d.participants,
      alookup (endChatSession s u).snd.umap (userSessionKey q) = none := by
  have hrun : endChatSession s u =
      (true, d.participants.foldl (fun st p => delUMap st (userSessionKey p))
        (delStr s (chatSessionKey cid))) := by
    unfold endChatSession
    rw [h1]
    simp [h2, h3]
  have humap : ∀ q ∈ d.participants,
      alookup (endChatSession s u).snd.umap (userSessionKey q) = none := by
    intro q hq
    rw [hrun]
    exact foldl_delUMap_mem_none d.participants _ q hq
  have hnone : ∀ t : RedisState, alookup t.umap (userSessionKey u) = none →
      endChatSession t u = (false, t) := by
    intro t ht
    unfold endChatSession
    rw [ht]
  refine ⟨by rw [hrun], ?_, ?_, humap⟩
  · rw [hnone _ (humap u hp)]
  · rw [hrun]
    simp only [foldl_delUMap_strs]
    unfold delStr
    simp [alookup_adel]

/-- A store with an active two-party session, for the C6 witness. -/
def c6State : RedisState :=
  ⟨[], [("chat_session:C", ChatVal.json ⟨"srv", ["u", "v"]⟩)],
   [("user_session:u", "C"), ("user_session:v", "C")], []⟩

/-- Witness for claim C6 at a concrete store. -/
theorem c6_witness :
    (endChatSession c6State "u").fst = true ∧
    (endChatSession (endChatSession c6State "u").snd "u").fst = false ∧
    alookup (endChatSession c6State "u").snd.strs (chatSessionKey "C") = none ∧
    ∀ q ∈ (SessionData.mk "srv" ["u", "v"]).participants,
      alookup (endChatSession c6State "u").snd.umap (userSessionKey q) =
        none :=
  c6_end_twice c6State "u" "C" ⟨"srv", ["u", "v"]⟩ rfl (by decide) rfl
    (by decide)

/-- Claim C10 (amended): when the session record exists but holds a
non-empty string that `JSON.parse` rejects, `getSessionForUser` returns
`None` and leaves the store unchanged - deleting neither key - while
`endChatSession` on the same store deletes the caller's mapping and returns
`false`.  (The empty string, also unparseable, is falsy in JS and instead
takes the dangling-mapping repair path - see the counterexample.) -/
theorem c10_parse_error_no_repair (s : RedisState) (u cid raw : String)
    (h1 : alookup s.umap (userSessionKey u) = some cid) (h2 : cid ≠ "")
    (h3 : alookup s.strs (chatSessionKey cid) = some (ChatVal.junk raw))
    (hraw : raw ≠ "") :
    getSessionForUser s u = (none, s) ∧
    endChatSession s u = (false, delUMap s (userSessionKey u)) := by
  constructor
  · unfold getSessionForUser
    rw [h1]
    simp [h2, h3, hraw]
  · unfold endChatSession
    rw [h1]
    simp [h2, h3, hraw]

/-- A store whose session record is the empty string: `JSON.parse('')`
throws, yet the code's falsy check fires first. -/
def c10State : RedisState :=
  ⟨[], [("chat_session:C", ChatVal.junk "")], [("user_session:u", "C")], []⟩

/-- Counterexample to claim C10 as stated: for the empty-string record -
a string that is not parseable JSON - `getSessionForUser` does NOT leave
the store unchanged: the falsy-record check treats it as a dangling mapping
and deletes `user_session:u`. -/
theorem c10_counterexample :
    (getSessionForUser c10State "u").fst = none ∧
    (getSessionForUser c10State "u").snd ≠ c10State ∧
    alookup (getSessionForUser c10State "u").snd.umap (userSessionKey "u") =
      none := by
  refine ⟨by decide, by decide, by decide⟩

/-- A store whose session record is non-empty unparseable junk, for the C10
witness. -/
def c10JunkState : RedisState :=
  ⟨[], [("chat_session:C", ChatVal.junk "not json")],
   [("user_session:u", "C")], []⟩

/-- Witness for claim C10 (amended) at a concrete store. -/
theorem c10_witness :
    getSessionForUser c10JunkState "u" = (none, c10JunkState) ∧
    endChatSession c10JunkState "u" =
      (false, delUMap c10JunkState (userSessionKey "u")) :=
  c10_parse_error_no_repair c10JunkState "u" "C" "not json" rfl (by decide)
    rfl (by decide)

theorem rmq_noop (s : RedisState) (u : String)
    (h : smembers s (userInterestsKey u) = []) : removeUserFromQueue s u = s := by
  unfold removeUserFromQueue
  rw [h]
  simp

theorem sremOne_not_mem (s : RedisState) (k k2 x : String)
    (h : x ∉ smembers s k) : x ∉ smembers (sremOne s k2 x) k := by
  rw [smembers_sremOne]
  rcases eq_or_ne k k2 with he | he
  · simp [he, List.mem_filter]
  · simp [he, h]

theorem fold_srem_not_mem (l : List String) (s : RedisState) (x k : String)
    (h : x ∉ smembers s k) :
    x ∉ smembers (l.foldl (fun st i => sremOne st (interestKey i) x) s) k := by
  induction l generalizing s with
  | nil => exact h
  | cons i rest ih => exact ih _ (sremOne_not_mem _ _ _ _ h)

theorem fold_srem_removes (l : List String) (s : RedisState) (x i : String)
    (hi : i ∈ l) :
    x ∉ smembers (l.foldl (fun st j => sremOne st (interestKey j) x) s)
      (interestKey i) := by
  induction l generalizing s with
  | nil => cases hi
  | cons j rest ih =>
    simp only [List.foldl_cons]
    rcases List.mem_cons.mp hi with h | h
    · subst h
      by_cases hmem : i ∈ rest
      · exact ih _ hmem
      · apply fold_srem_not_mem
        rw [smembers_sremOne]
        simp [List.mem_filter]
    · exact ih _ h

theorem fold_srem_preserves (l : List String) (s : RedisState) (x q : String)
    (hq : ∀ i ∈ l, q ≠ interestKey i) :
    smembers (l.foldl (fun st i => sremOne st (interestKey i) x) s) q =
      smembers s q := by
  induction l generalizing s with
  | nil => rfl
  | cons j rest ih =>
    simp only [List.foldl_cons]
    rw [ih _ (fun i hi => hq i (List.mem_cons_of_mem _ hi)), smembers_sremOne]
    simp [hq j (List.mem_cons_self _ _)]

/-- Claim C9: `removeUserFromQueue` is a no-op on a user with no enqueued
state and is idempotent; otherwise it removes the user from exactly the
interest queues listed under `user_interests:<userId>` (leaving every key
outside that list untouched) and deletes that key, so a second call leaves
the store unchanged. -/
theorem c9_cancel_idempotent (s : RedisState) (u : String) :
    (smembers s (userInterestsKey u) = [] → removeUserFromQueue s u = s) ∧
    smembers (removeUserFromQueue s u) (userInterestsKey u) = [] ∧
    removeUserFromQueue (removeUserFromQueue s u) u = removeUserFromQueue s u ∧
    (∀ i ∈ smembers s (userInterestsKey u),
      u ∉ smembers (removeUserFromQueue s u) (interestKey i)) ∧
    (∀ k, (∀ i ∈ smembers s (userInterestsKey u), k ≠ interestKey i) →
      k ≠ userInterestsKey u →
      smembers (removeUserFromQueue s u) k = smembers s k) := by
  by_cases h : smembers s (userInterestsKey u) = []
  · refine ⟨fun _ => rmq_noop s u h, ?_, ?_, ?_, ?_⟩
    · rw [rmq_noop s u h]; exact h
    · rw [rmq_noop s u h]; exact rmq_noop s u h
    · intro i hi; rw [h] at hi; cases hi
    · intro k _ _; rw [rmq_noop s u h]
  · have hrun : removeUserFromQueue s u =
        delSet ((smembers s (userInterestsKey u)).foldl
          (fun st i => sremOne st (interestKey i) u) s) (userInterestsKey u) := by
      unfold removeUserFromQueue
      simp [h]
    have hkey : smembers (removeUserFromQueue s u) (userInterestsKey u) = [] := by
      rw [hrun, smembers_delSet]
      simp
    refine ⟨fun he => absurd he h, hkey, rmq_noop _ _ hkey, ?_, ?_⟩
    · intro i hi
      rw [hrun, smembers_delSet, if_neg (interestKey_ne_userInterestsKey i u)]
      exact fold_srem_removes _ _ _ i hi
    · intro k hk hku
      rw [hrun, smembers_delSet, if_neg hku]
      exact fold_srem_preserves _ _ _ _ hk

/-- The empty store. -/
def emptyStore : RedisState := ⟨[], [], [], []⟩

/-- A store with user `A` enqueued on tag `x`, for the C9 witness. -/
def c9State : RedisState :=
  ⟨[("interest:X", ["A", "B"]), ("user_interests:A", ["x"])], [], [], []⟩

/-- Witness for claim C9: the concrete no-op and idempotence instances. -/
theorem c9_witness :
    removeUserFromQueue emptyStore "A" = emptyStore ∧
    removeUserFromQueue (removeUserFromQueue c9State "A") "A" =
      removeUserFromQueue c9State "A" :=
  ⟨(c9_cancel_idempotent emptyStore "A").1 (by decide),
   (c9_cancel_idempotent c9State "A").2.2.1⟩

theorem saddOne_mem_mono (s : RedisState) (k2 m2 x k : String)
    (h : x ∈ smembers s k) : x ∈ smembers (saddOne s k2 m2) k := by
  rw [smembers_saddOne]
  rcases eq_or_ne k k2 with he | he
  · subst he
    by_cases hm : m2 ∈ smembers s k
    · simp [hm, h]
    · simp only [if_pos rfl, hm, if_neg]
      simp [List.mem_append, h]
  · simp [he, h]

theorem saddOne_mem_self (s : RedisState) (k m : String) :
    m ∈ smembers (saddOne s k m) k := by
  rw [smembers_saddOne]
  by_cases hm : m ∈ smembers s k <;> simp [hm]

theorem fold_sadd_mem_mono (tags : List String) (kf mf : String → String)
    (s : RedisState) (x k : String) (h : x ∈ smembers s k) :
    x ∈ smembers (tags.foldl (fun st j => saddOne st (kf j) (mf j)) s) k := by
  induction tags generalizing s with
  | nil => exact h
  | cons j rest ih => exact ih _ (saddOne_mem_mono _ _ _ _ _ h)

theorem fold_sadd_mem (tags : List String) (s : RedisState) (u i : String)
    (hi : i ∈ tags) :
    u ∈ smembers (tags.foldl (fun st j => saddOne st (interestKey j) u) s)
      (interestKey i) := by
  induction tags generalizing s with
  | nil => cases hi
  | cons j rest ih =>
    simp only [List.foldl_cons]
    rcases List.mem_cons.mp hi with h | h
    · subst h
      by_cases hmem : i ∈ rest
      · exact ih _ hmem
      · exact fold_sadd_mem_mono rest interestKey (fun _ => u) _ u _
          (saddOne_mem_self s _ u)
    · exact ih _ h

theorem endChatSession_smembers (s : RedisState) (u q : String) :
    smembers (endChatSession s u).2 q = smembers s q :=
  smembers_ext _ _ (endChatSession_sets s u) q

theorem recordPopularity_smembers (tags : List String) (s : RedisState)
    (u : String) (now : Nat) (q : String) (hq : q ≠ allInterestsKey) :
    smembers (recordPopularity s u now tags) q = smembers s q := by
  unfold recordPopularity
  induction tags generalizing s with
  | nil => rfl
  | cons i rest ih =>
    simp only [List.foldl_cons]
    rw [ih]
    rw [smembers_saddOne, if_neg hq]
    exact smembers_ext _ _ (zadd_sets s (popularityKey i) now u) q

theorem pop_push_smembers (s : RedisState) (k m : String)
    (h : smembers s k = [m]) :
    ∀ q, smembers (saddOne (setMembers s k []) k m) q = smembers s q := by
  intro q
  simp only [smembers_saddOne, smembers_setMembers]
  rcases eq_or_ne q k with he | he
  · simp [he, h]
  · simp [he]

theorem scanOwn_self (u : String) (ci : List String) (hu : u ≠ "") :
    ∀ (l : List String) (s : RedisState),
      (∀ i ∈ l, smembers s (interestKey i) = [u]) →
      ∃ s2, scanOwn u ci l s = ScanRes.exhausted s2 ∧
        ∀ k, smembers s2 k = smembers s k := by
  intro l
  induction l with
  | nil => exact fun s _ => ⟨s, rfl, fun k => rfl⟩
  | cons i rest ih =>
    intro s hl
    have hqi : smembers s (interestKey i) = [u] := hl i (List.mem_cons_self _ _)
    have hspop := spop_of_cons s (interestKey i) u [] hqi
    have hps := pop_push_smembers s (interestKey i) u hqi
    obtain ⟨s2, hrun, hpt⟩ :=
      ih (saddOne (setMembers s (interestKey i) []) (interestKey i) u)
        (fun j hj => (hps (interestKey j)).trans (hl j (List.mem_cons_of_mem _ hj)))
    refine ⟨s2, ?_, fun k => (hpt k).trans (hps k)⟩
    simp only [scanOwn, hspop]
    rw [if_neg (fun hc : u ≠ "" ∧ u ≠ u => hc.2 rfl), if_pos hu]
    exact hrun

/-- Claim C8: for an interest-bearing caller whose interest queues each
contain only the caller itself, with the wildcard queue empty or containing
only the caller, `findOrQueueUser` returns `Waiting` and the caller is
afterwards again a member of each of those interest queues: a popped own id
is reinserted and the search continues.  (`shuffled` ranges over every
permutation the in-place shuffle can produce; a non-empty user id is what
the route guarantees and the spec requires.) -/
theorem c8_self_pop_waiting (url u : String) (interests shuffled : List String)
    (now : Nat) (s : RedisState)
    (hne : interests ≠ []) (hu : u ≠ "")
    (hperm : shuffled.Perm interests)
    (hq : ∀ i ∈ interests, smembers s (interestKey i) = [u])
    (hw : smembers s (interestKey WILDCARD) = [] ∨
          smembers s (interestKey WILDCARD) = [u]) :
    (findOrQueueUser url u interests shuffled now s).fst = Outcome.waiting ∧
    ∀ i ∈ interests,
      u ∈ smembers (findOrQueueUser url u interests shuffled now s).snd
        (interestKey i) := by
  have hRq : ∀ q, q ≠ allInterestsKey →
      smembers (recordPopularity (endChatSession s u).2 u now interests) q =
        smembers s q := fun q hqne =>
    (recordPopularity_smembers interests _ u now q hqne).trans
      (endChatSession_smembers s u q)
  have hq2 : ∀ i ∈ shuffled,
      smembers (recordPopularity (endChatSession s u).2 u now interests)
        (interestKey i) = [u] := fun i hi =>
    (hRq _ (interestKey_ne_allInterestsKey i)).trans (hq i (hperm.mem_iff.mp hi))
  obtain ⟨s2, hscan, hpt⟩ := scanOwn_self u shuffled hu shuffled _ hq2
  have hptS : ∀ q, q ≠ allInterestsKey → smembers s2 q = smembers s q :=
    fun q hqne => (hpt q).trans (hRq q hqne)
  have hfinal : ∀ (sX : RedisState),
      (∀ q, q ≠ allInterestsKey → smembers sX q = smembers s q) →
      (enqueueStd u shuffled sX).fst = Outcome.waiting ∧
      ∀ i ∈ interests,
        u ∈ smembers (enqueueStd u shuffled sX).snd (interestKey i) := by
    intro sX _
    unfold enqueueStd
    refine ⟨rfl, fun i hi => ?_⟩
    exact fold_sadd_mem_mono shuffled (fun _ => userInterestsKey u) (fun j => j)
      _ u _ (fold_sadd_mem shuffled sX u i (hperm.mem_iff.mpr hi))
  unfold findOrQueueUser
  rw [if_neg hne]
  dsimp only
  rw [hscan]
  dsimp only
  unfold standardTail
  have hwv : smembers s2 (interestKey WILDCARD) =
      smembers s (interestKey WILDCARD) :=
    hptS _ (interestKey_ne_allInterestsKey WILDCARD)
  rcases hw with hwe | hwu
  · rw [spop_of_nil s2 _ (hwv.trans hwe)]
    exact hfinal s2 hptS
  · rw [spop_of_cons s2 _ u [] (hwv.trans hwu)]
    dsimp only
    rw [if_neg (fun hc : u ≠ "" ∧ u ≠ u => hc.2 rfl), if_pos hu]
    exact hfinal _ (fun q hqne =>
      (pop_push_smembers s2 (interestKey WILDCARD) u (hwv.trans hwu) q).trans
        (hptS q hqne))

/-- A store where the caller `A` is the sole waiter of each of its queues
and of the wildcard queue, for the C8 witness. -/
def c8State : RedisState :=
  ⟨[("interest:X", ["A"]), ("interest:Y", ["A"]),
    ("interest:WILDCARD_ANY", ["A"])], [], [], []⟩

/-- Witness for claim C8: a concrete self-only caller waits and is
re-enqueued, under a genuine shuffle of its two tags. -/
theorem c8_witness :
    (findOrQueueUser "u0" "A" ["x", "y"] ["y", "x"] 3 c8State).fst =
      Outcome.waiting ∧
    ∀ i ∈ ["x", "y"],
      "A" ∈ smembers (findOrQueueUser "u0" "A" ["x", "y"] ["y", "x"] 3
        c8State).snd (interestKey i) :=
  c8_self_pop_waiting "u0" "A" ["x", "y"] ["y", "x"] 3 c8State (by decide)
    (by decide) (by decide) (by decide) (Or.inr (by decide))

/-- The state carried by either constructor of a scan result. -/
def scanState : ScanRes → RedisState
  | ScanRes.found _ _ st => st
  | ScanRes.exhausted st => st

theorem spop_umap (s : RedisState) (k : String) :
    (spop s k).2.umap = s.umap := by
  unfold spop
  rcases h : smembers s k with _ | ⟨m, rest⟩
  · rfl
  · exact setMembers_umap s k rest

theorem delSet_umap (s : RedisState) (k : String) :
    (delSet s k).umap = s.umap := rfl

theorem fold_srem_umap (l : List String) (s : RedisState) (x : String) :
    (l.foldl (fun st t => sremOne st (interestKey t) x) s).umap = s.umap := by
  induction l generalizing s with
  | nil => rfl
  | cons t rest ih => exact (ih _).trans (sremOne_umap s _ x)

theorem fold_sadd_umap (tags : List String) (kf mf : String → String)
    (s : RedisState) :
    (tags.foldl (fun st j => saddOne st (kf j) (mf j)) s).umap = s.umap := by
  induction tags generalizing s with
  | nil => rfl
  | cons j rest ih => exact (ih _).trans (saddOne_umap s _ _)

theorem recordPopularity_umap (tags : List String) (s : RedisState)
    (u : String) (now : Nat) :
    (recordPopularity s u now tags).umap = s.umap := by
  unfold recordPopularity
  induction tags generalizing s with
  | nil => rfl
  | cons i rest ih =>
    simp only [List.foldl_cons]
    exact (ih _).trans ((saddOne_umap _ _ _).trans (zadd_umap s _ now u))

theorem enqueueStd_umap (u : String) (tags : List String) (s : RedisState) :
    (enqueueStd u tags s).2.umap = s.umap := by
  unfold enqueueStd
  dsimp only
  exact (fold_sadd_umap tags (fun _ => userInterestsKey u) (fun j => j) _).trans
    (fold_sadd_umap tags interestKey (fun _ => u) s)

theorem scanOwn_umap (u0 : String) (ci : List String) :
    ∀ (l : List String) (s : RedisState),
      (scanState (scanOwn u0 ci l s)).umap = s.umap := by
  intro l
  induction l with
  | nil => intro s; rfl
  | cons i rest ih =>
    intro s
    simp only [scanOwn]
    cases hsp : spop s (interestKey i) with
    | mk ox s1 =>
      have hs1 : s1.umap = s.umap := by
        have htmp := spop_umap s (interestKey i)
        rw [hsp] at htmp
        exact htmp
      rcases ox with _ | x
      · exact (ih s1).trans hs1
      · dsimp only
        by_cases hc : x ≠ "" ∧ x ≠ u0
        · rw [if_pos hc]
          by_cases hcm : commonInterestsOf
              (smembers s1 (userInterestsKey x)) ci = []
          · rw [if_pos hcm]
            exact (ih _).trans ((saddOne_umap _ _ _).trans hs1)
          · rw [if_neg hcm]
            exact (fold_srem_umap _ _ _).trans hs1
        · rw [if_neg hc]
          by_cases hx : x ≠ ""
          · rw [if_pos hx]
            exact (ih _).trans ((saddOne_umap _ _ _).trans hs1)
          · rw [if_neg hx]
            exact (ih s1).trans hs1

theorem scanAll_umap (u0 : String) :
    ∀ (l : List String) (s : RedisState),
      (scanState (scanAll u0 l s)).umap = s.umap := by
  intro l
  induction l with
  | nil => intro s; rfl
  | cons i rest ih =>
    intro s
    simp only [scanAll]
    by_cases hskip : i = WILDCARD
    · rw [if_pos hskip]
      exact ih s
    · rw [if_neg hskip]
      cases hsp : spop s (interestKey i) with
      | mk ox s1 =>
        have hs1 : s1.umap = s.umap := by
          have htmp := spop_umap s (interestKey i)
          rw [hsp] at htmp
          exact htmp
        rcases ox with _ | x
        · exact (ih s1).trans hs1
        · dsimp only
          by_cases hc : x ≠ "" ∧ x ≠ u0
          · rw [if_pos hc]
            exact (fold_srem_umap _ _ _).trans hs1
          · rw [if_neg hc]
            by_cases hx : x ≠ ""
            · rw [if_pos hx]
              exact (ih _).trans ((saddOne_umap _ _ _).trans hs1)
            · rw [if_neg hx]
              exact (ih s1).trans hs1

theorem spop_nil_preserved (s : RedisState) (k q : String) (ox : Option String)
    (s1 : RedisState) (hsp : spop s k = (ox, s1))
    (h : smembers s q = []) : smembers s1 q = [] := by
  unfold spop at hsp
  rcases hk : smembers s k with _ | ⟨m, rest⟩
  · rw [hk] at hsp
    cases hsp
    exact h
  · rw [hk] at hsp
    cases hsp
    rw [smembers_setMembers]
    rcases eq_or_ne q k with he | he
    · subst he
      rw [h] at hk
      cases hk
    · rw [if_neg he]
      exact h

theorem delSet_nil_preserved (s : RedisState) (k q : String)
    (h : smembers s q = []) : smembers (delSet s k) q = [] := by
  rw [smembers_delSet]
  rcases eq_or_ne q k with he | he <;> simp [he, h]

theorem sremOne_nil_preserved (s : RedisState) (k m q : String)
    (h : smembers s q = []) : smembers (sremOne s k m) q = [] := by
  rw [smembers_sremOne]
  rcases eq_or_ne q k with he | he
  · subst he
    simp [h]
  · simp [he, h]

theorem fold_srem_nil_preserved (l : List String) (s : RedisState)
    (x q : String) (h : smembers s q = []) :
    smembers (l.foldl (fun st t => sremOne st (interestKey t) x) s) q = [] := by
  induction l generalizing s with
  | nil => exact h
  | cons t rest ih => exact ih _ (sremOne_nil_preserved s _ x q h)

theorem saddOne_nil_ne (s : RedisState) (k m q : String) (hk : q ≠ k)
    (h : smembers s q = []) : smembers (saddOne s k m) q = [] := by
  rw [smembers_saddOne, if_neg hk]
  exact h

theorem storeChatSession_smembers (s : RedisState) (cid url : String)
    (ps : List String) (q : String) :
    smembers (storeChatSession s cid url ps) q = smembers s q :=
  smembers_ext _ _ (storeChatSession_sets s cid url ps) q

theorem scanOwn_nil (u0 u : String) (ci : List String) :
    ∀ (l : List String) (s : RedisState),
      smembers s (userInterestsKey u) = [] →
      smembers (scanState (scanOwn u0 ci l s)) (userInterestsKey u) = [] := by
  intro l
  induction l with
  | nil => intro s h; exact h
  | cons i rest ih =>
    intro s h
    simp only [scanOwn]
    cases hsp : spop s (interestKey i) with
    | mk ox s1 =>
      have hs1 : smembers s1 (userInterestsKey u) = [] :=
        spop_nil_preserved s (interestKey i) _ ox s1 hsp h
      rcases ox with _ | x
      · exact ih s1 hs1
      · dsimp only
        by_cases hc : x ≠ "" ∧ x ≠ u0
        · rw [if_pos hc]
          by_cases hcm : commonInterestsOf
              (smembers s1 (userInterestsKey x)) ci = []
          · rw [if_pos hcm]
            exact ih _ (saddOne_nil_ne s1 _ x _
              (Ne.symm (interestKey_ne_userInterestsKey i u)) hs1)
          · rw [if_neg hcm]
            exact delSet_nil_preserved _ _ _
              (fold_srem_nil_preserved _ s1 x _ hs1)
        · rw [if_neg hc]
          by_cases hx : x ≠ ""
          · rw [if_pos hx]
            exact ih _ (saddOne_nil_ne s1 _ x _
              (Ne.symm (interestKey_ne_userInterestsKey i u)) hs1)
          · rw [if_neg hx]
            exact ih s1 hs1

theorem scanAll_nil (u0 u : String) :
    ∀ (l : List String) (s : RedisState),
      smembers s (userInterestsKey u) = [] →
      smembers (scanState (scanAll u0 l s)) (userInterestsKey u) = [] := by
  intro l
  induction l with
  | nil => intro s h; exact h
  | cons i rest ih =>
    intro s h
    simp only [scanAll]
    by_cases hskip : i = WILDCARD
    · rw [if_pos hskip]
      exact ih s h
    · rw [if_neg hskip]
      cases hsp : spop s (interestKey i) with
      | mk ox s1 =>
        have hs1 : smembers s1 (userInterestsKey u) = [] :=
          spop_nil_preserved s (interestKey i) _ ox s1 hsp h
        rcases ox with _ | x
        · exact ih s1 hs1
        · dsimp only
          by_cases hc : x ≠ "" ∧ x ≠ u0
          · rw [if_pos hc]
            exact delSet_nil_preserved _ _ _
              (fold_srem_nil_preserved _ s1 x _ hs1)
          · rw [if_neg hc]
            by_cases hx : x ≠ ""
            · rw [if_pos hx]
              exact ih _ (saddOne_nil_ne s1 _ x _
                (Ne.symm (interestKey_ne_userInterestsKey i u)) hs1)
            · rw [if_neg hx]
              exact ih s1 hs1

theorem endChatSession_umap_none (s : RedisState) (u : String)
    (hSess : ∀ cid, alookup s.umap (userSessionKey u) = some cid →
      cid ≠ "" ∧ ∀ d, alookup s.strs (chatSessionKey cid) =
        some (ChatVal.json d) → u ∈ d.participants) :
    alookup (endChatSession s u).2.umap (userSessionKey u) = none := by
  unfold endChatSession
  rcases hm : alookup s.umap (userSessionKey u) with _ | cid
  · exact hm
  · obtain ⟨hcne, hpart⟩ := hSess cid hm
    dsimp only
    rw [if_neg hcne]
    rcases hr : alookup s.strs (chatSessionKey cid) with _ | v
    · unfold delUMap
      simp [alookup_adel]
    · dsimp only
      by_cases hjunk : v = ChatVal.junk ""
      · rw [if_pos hjunk]
        unfold delUMap
        simp [alookup_adel]
      · rw [if_neg hjunk]
        cases v with
        | junk raw =>
          unfold delUMap
          simp [alookup_adel]
        | json d =>
          dsimp only
          exact foldl_delUMap_mem_none d.participants _ u (hpart d hr)

theorem spop_umap_of_eq (s : RedisState) (k : String) (ox : Option String)
    (s1 : RedisState) (hsp : spop s k = (ox, s1)) : s1.umap = s.umap := by
  have htmp := spop_umap s k
  rw [hsp] at htmp
  exact htmp

theorem standardTail_waiting_umap (url u : String) (sh : List String)
    (st s2 : RedisState)
    (h : standardTail url u sh st = (Outcome.waiting, s2)) :
    s2.umap = st.umap := by
  unfold standardTail at h
  cases hsp : spop st (interestKey WILDCARD) with
  | mk ox s1 =>
    rw [hsp] at h
    have hs1 : s1.umap = st.umap := spop_umap_of_eq st _ ox s1 hsp
    rcases ox with _ | x
    · have h2 := congrArg (fun r => r.2.umap) h
      dsimp only at h2
      rw [← h2]
      exact (enqueueStd_umap u sh s1).trans hs1
    · dsimp only at h
      by_cases hc : x ≠ "" ∧ x ≠ u
      · rw [if_pos hc] at h
        exact absurd (congrArg Prod.fst h) (by simp [pairForm])
      · rw [if_neg hc] at h
        have h2 := congrArg (fun r => r.2.umap) h
        dsimp only at h2
        rw [← h2]
        refine (enqueueStd_umap u sh _).trans ?_
        by_cases hx : x ≠ ""
        · rw [if_pos hx]
          exact (saddOne_umap _ _ _).trans hs1
        · rw [if_neg hx]
          exact hs1

theorem standardTail_matched_nil (url u : String) (sh : List String)
    (st : RedisState) (p : String) (c : List String) (cid sv : String)
    (s2 : RedisState)
    (h : standardTail url u sh st = (Outcome.matched p c cid sv, s2))
    (hnil : smembers st (userInterestsKey u) = []) :
    smembers s2 (userInterestsKey u) = [] := by
  unfold standardTail at h
  cases hsp : spop st (interestKey WILDCARD) with
  | mk ox s1 =>
    rw [hsp] at h
    have hs1 : smembers s1 (userInterestsKey u) = [] :=
      spop_nil_preserved st _ _ ox s1 hsp hnil
    rcases ox with _ | x
    · exact absurd (congrArg Prod.fst h) (by simp [enqueueStd])
    · dsimp only at h
      by_cases hc : x ≠ "" ∧ x ≠ u
      · rw [if_pos hc] at h
        have h2 := congrArg Prod.snd h
        dsimp only [pairForm] at h2
        rw [← h2, storeChatSession_smembers]
        exact delSet_nil_preserved s1 _ _ hs1
      · rw [if_neg hc] at h
        exact absurd (congrArg Prod.fst h) (by simp [enqueueStd])

theorem wildcardTail_waiting_umap (url u : String) (st s2 : RedisState)
    (h : wildcardTail url u st = (Outcome.waiting, s2)) :
    s2.umap = st.umap := by
  unfold wildcardTail at h
  cases hscan : scanAll u (smembers st allInterestsKey) st with
  | found x c st2 =>
    rw [hscan] at h
    exact absurd (congrArg Prod.fst h) (by simp [pairForm])
  | exhausted st2 =>
    rw [hscan] at h
    dsimp only at h
    have hst2 : st2.umap = st.umap := by
      have htmp := scanAll_umap u (smembers st allInterestsKey) st
      rw [hscan] at htmp
      exact htmp
    have h2 := congrArg (fun r => r.2.umap) h
    dsimp only at h2
    rw [← h2]
    exact ((saddOne_umap _ _ _).trans
      ((saddOne_umap _ _ _).trans (saddOne_umap _ _ _))).trans hst2

theorem wildcardTail_matched_nil (url u : String) (st : RedisState)
    (p : String) (c : List String) (cid sv : String) (s2 : RedisState)
    (h : wildcardTail url u st = (Outcome.matched p c cid sv, s2))
    (hnil : smembers st (userInterestsKey u) = []) :
    smembers s2 (userInterestsKey u) = [] := by
  unfold wildcardTail at h
  cases hscan : scanAll u (smembers st allInterestsKey) st with
  | found x c2 st2 =>
    rw [hscan] at h
    have hst2 : smembers st2 (userInterestsKey u) = [] := by
      have htmp := scanAll_nil u u (smembers st allInterestsKey) st hnil
      rw [hscan] at htmp
      exact htmp
    have h2 := congrArg Prod.snd h
    dsimp only [pairForm] at h2
    rw [← h2, storeChatSession_smembers]
    exact hst2
  | exhausted st2 =>
    rw [hscan] at h
    exact absurd (congrArg Prod.fst h) (by simp)

theorem findOrQueue_waiting_umap (url u : String)
    (interests shuffled : List String) (now : Nat) (s s2 : RedisState)
    (h : findOrQueueUser url u interests shuffled now s =
      (Outcome.waiting, s2))
    (hSess : ∀ cid, alookup s.umap (userSessionKey u) = some cid →
      cid ≠ "" ∧ ∀ d, alookup s.strs (chatSessionKey cid) =
        some (ChatVal.json d) → u ∈ d.participants) :
    alookup s2.umap (userSessionKey u) = none := by
  have hE := endChatSession_umap_none s u hSess
  unfold findOrQueueUser at h
  by_cases hi : interests = []
  · rw [if_pos hi] at h
    cases hsp : spop (endChatSession s u).2 (interestKey WILDCARD) with
    | mk ox s1 =>
      rw [hsp] at h
      have hs1 : s1.umap = (endChatSession s u).2.umap :=
        spop_umap_of_eq _ _ ox s1 hsp
      rcases ox with _ | x
      · rw [wildcardTail_waiting_umap url u s1 s2 h, hs1]
        exact hE
      · dsimp only at h
        by_cases hc : x ≠ "" ∧ x ≠ u
        · rw [if_pos hc] at h
          exact absurd (congrArg Prod.fst h) (by simp [pairForm])
        · rw [if_neg hc] at h
          rw [wildcardTail_waiting_umap url u _ s2 h]
          by_cases hx : x ≠ ""
          · rw [if_pos hx, saddOne_umap, hs1]
            exact hE
          · rw [if_neg hx, hs1]
            exact hE
  · rw [if_neg hi] at h
    dsimp only at h
    cases hscan : scanOwn u shuffled shuffled
        (recordPopularity (endChatSession s u).2 u now interests) with
    | found x c st =>
      rw [hscan] at h
      exact absurd (congrArg Prod.fst h) (by simp [pairForm])
    | exhausted st =>
      rw [hscan] at h
      dsimp only at h
      have hst : st.umap = (endChatSession s u).2.umap := by
        have htmp := scanOwn_umap u shuffled shuffled
          (recordPopularity (endChatSession s u).2 u now interests)
        rw [hscan] at htmp
        exact htmp.trans (recordPopularity_umap interests _ u now)
      rw [standardTail_waiting_umap url u shuffled st s2 h, hst]
      exact hE

theorem findOrQueue_matched_uinterests (url u : String)
    (interests shuffled : List String) (now : Nat) (s : RedisState)
    (p : String) (c : List String) (cid sv : String) (s2 : RedisState)
    (h : findOrQueueUser url u interests shuffled now s =
      (Outcome.matched p c cid sv, s2))
    (hQ : smembers s (userInterestsKey u) = []) :
    smembers s2 (userInterestsKey u) = [] := by
  have hQE : smembers (endChatSession s u).2 (userInterestsKey u) = [] :=
    (endChatSession_smembers s u _).trans hQ
  unfold findOrQueueUser at h
  by_cases hi : interests = []
  · rw [if_pos hi] at h
    cases hsp : spop (endChatSession s u).2 (interestKey WILDCARD) with
    | mk ox s1 =>
      rw [hsp] at h
      have hs1 : smembers s1 (userInterestsKey u) = [] :=
        spop_nil_preserved _ _ _ ox s1 hsp hQE
      rcases ox with _ | x
      · exact wildcardTail_matched_nil url u s1 p c cid sv s2 h hs1
      · dsimp only at h
        by_cases hc : x ≠ "" ∧ x ≠ u
        · rw [if_pos hc] at h
          have h2 := congrArg Prod.snd h
          dsimp only [pairForm] at h2
          rw [← h2, storeChatSession_smembers]
          exact delSet_nil_preserved s1 _ _ hs1
        · rw [if_neg hc] at h
          refine wildcardTail_matched_nil url u _ p c cid sv s2 h ?_
          by_cases hx : x ≠ ""
          · rw [if_pos hx]
            exact saddOne_nil_ne s1 _ x _
              (Ne.symm (interestKey_ne_userInterestsKey WILDCARD u)) hs1
          · rw [if_neg hx]
            exact hs1
  · rw [if_neg hi] at h
    dsimp only at h
    have hQR : smembers
        (recordPopularity (endChatSession s u).2 u now interests)
        (userInterestsKey u) = [] :=
      (recordPopularity_smembers interests _ u now _
        (userInterestsKey_ne_allInterestsKey u)).trans hQE
    cases hscan : scanOwn u shuffled shuffled
        (recordPopularity (endChatSession s u).2 u now interests) with
    | found x c2 st =>
      rw [hscan] at h
      dsimp only at h
      have hst : smembers st (userInterestsKey u) = [] := by
        have htmp := scanOwn_nil u u shuffled shuffled
          (recordPopularity (endChatSession s u).2 u now interests) hQR
        rw [hscan] at htmp
        exact htmp
      have h2 := congrArg Prod.snd h
      dsimp only [pairForm] at h2
      rw [← h2, storeChatSession_smembers]
      exact hst
    | exhausted st =>
      rw [hscan] at h
      dsimp only at h
      have hst : smembers st (userInterestsKey u) = [] := by
        have htmp := scanOwn_nil u u shuffled shuffled
          (recordPopularity (endChatSession s u).2 u now interests) hQR
        rw [hscan] at htmp
        exact htmp
      exact standardTail_matched_nil url u shuffled st p c cid sv s2 h hst

/-- Claim C2 (amended): provided the caller is not already enqueued when the
call starts (no stale `user_interests` record) and the caller's session
state is well formed (a mapped chat id is non-empty and its record, when
present and parseable, lists the caller among its participants - which is
how every record is written), `findOrQueueUser` never returns leaving the
caller simultaneously holding a `user_interests` record and a
`user_session` mapping: the prior session is ended at the start, a
`Waiting` outcome leaves no session mapping, and a `Matched` outcome leaves
no `user_interests` record.  Without the first hypothesis the invariant
fails: a matched caller's own stale queue entries are never cleaned (see the
counterexample). -/
theorem c2_no_enqueued_session (url u : String)
    (interests shuffled : List String) (now : Nat) (s : RedisState)
    (hQ : smembers s (userInterestsKey u) = [])
    (hSess : ∀ cid, alookup s.umap (userSessionKey u) = some cid →
      cid ≠ "" ∧ ∀ d, alookup s.strs (chatSessionKey cid) =
        some (ChatVal.json d) → u ∈ d.participants) :
    ¬((alookup (findOrQueueUser url u interests shuffled now s).snd.umap
        (userSessionKey u)).isSome = true ∧
      smembers (findOrQueueUser url u interests shuffled now s).snd
        (userInterestsKey u) ≠ []) := by
  rintro ⟨h1, h2⟩
  rcases hrun : findOrQueueUser url u interests shuffled now s with ⟨out, s2⟩
  rw [hrun] at h1 h2
  cases out with
  | waiting =>
    rw [findOrQueue_waiting_umap url u interests shuffled now s s2 hrun hSess]
      at h1
    cases h1
  | matched p c cid sv =>
    exact h2 (findOrQueue_matched_uinterests url u interests shuffled now s
      p c cid sv s2 hrun hQ)

/-- A store where caller `A` is still enqueued on tag `x` from an earlier
`Waiting` call while a fresh waiter `W` sits in the same queue. -/
def c2State : RedisState :=
  ⟨[("interest:X", ["W", "A"]), ("user_interests:A", ["x"]),
    ("user_interests:W", ["x"]), ("all_interests", ["x"])], [], [], []⟩

/-- Counterexample to claim C2 as stated: from `c2State`, the call matches
`W` but leaves `A` a member of `interest:X`, keeps the `user_interests:A`
record, and installs a `user_session:A` mapping - `A` is simultaneously
enqueued and holding a session when `findOrQueueUser` returns. -/
theorem c2_counterexample :
    (findOrQueueUser "u0" "A" ["x"] ["x"] 5 c2State).fst =
      Outcome.matched "W" ["x"] (chatIdFor "A" "W") "u0" ∧
    "A" ∈ smembers (findOrQueueUser "u0" "A" ["x"] ["x"] 5 c2State).snd
      (interestKey "x") ∧
    smembers (findOrQueueUser "u0" "A" ["x"] ["x"] 5 c2State).snd
      (userInterestsKey "A") = ["x"] ∧
    (alookup (findOrQueueUser "u0" "A" ["x"] ["x"] 5 c2State).snd.umap
      (userSessionKey "A")).isSome = true :=
  ⟨rfl, by decide, by decide, by decide⟩

/-- Witness for claim C2 (amended), at the empty store. -/
theorem c2_witness :
    ¬((alookup (findOrQueueUser "u0" "A" ["x"] ["x"] 5 emptyStore).snd.umap
        (userSessionKey "A")).isSome = true ∧
      smembers (findOrQueueUser "u0" "A" ["x"] ["x"] 5 emptyStore).snd
        (userInterestsKey "A") ≠ []) :=
  c2_no_enqueued_session "u0" "A" ["x"] ["x"] 5 emptyStore (by decide)
    (fun cid hcid => by simp [emptyStore, alookup] at hcid)

theorem fold_sadd_const_key (tags : List String) (s : RedisState)
    (k : String) :
    smembers (tags.foldl (fun st j => saddOne st k j) s) k =
      tags.foldl (fun acc m => if m ∈ acc then acc else acc ++ [m])
        (smembers s k) := by
  induction tags generalizing s with
  | nil => rfl
  | cons j rest ih =>
    simp only [List.foldl_cons]
    rw [ih]
    congr 1
    rw [smembers_saddOne, if_pos rfl]

theorem fold_sadd_interest_preserves (tags : List String) (s : RedisState)
    (u q : String) (hq : ∀ j, q ≠ interestKey j) :
    smembers (tags.foldl (fun st j => saddOne st (interestKey j) u) s) q =
      smembers s q := by
  induction tags generalizing s with
  | nil => rfl
  | cons j rest ih =>
    simp only [List.foldl_cons]
    rw [ih, smembers_saddOne, if_neg (hq j)]

theorem enqueueStd_uinterests (u : String) (tags : List String)
    (s : RedisState) :
    smembers (enqueueStd u tags s).2 (userInterestsKey u) =
      tags.foldl (fun acc m => if m ∈ acc then acc else acc ++ [m])
        (smembers s (userInterestsKey u)) := by
  unfold enqueueStd
  dsimp only
  rw [fold_sadd_const_key]
  congr 1
  exact fold_sadd_interest_preserves tags s u (userInterestsKey u)
    (fun j => Ne.symm (interestKey_ne_userInterestsKey j u))

theorem standardTail_waiting_uinterests (url u : String) (sh : List String)
    (st s2 : RedisState)
    (h : standardTail url u sh st = (Outcome.waiting, s2))
    (hnil : smembers st (userInterestsKey u) = []) :
    smembers s2 (userInterestsKey u) = sdedup sh := by
  unfold standardTail at h
  cases hsp : spop st (interestKey WILDCARD) with
  | mk ox s1 =>
    rw [hsp] at h
    have hs1 : smembers s1 (userInterestsKey u) = [] :=
      spop_nil_preserved st _ _ ox s1 hsp hnil
    rcases ox with _ | x
    · have h2 := congrArg Prod.snd h
      dsimp only at h2
      rw [← h2, enqueueStd_uinterests, hs1]
      rfl
    · dsimp only at h
      by_cases hc : x ≠ "" ∧ x ≠ u
      · rw [if_pos hc] at h
        exact absurd (congrArg Prod.fst h) (by simp [pairForm])
      · rw [if_neg hc] at h
        have h2 := congrArg Prod.snd h
        dsimp only at h2
        rw [← h2, enqueueStd_uinterests]
        have hnil2 : smembers
            (if x ≠ "" then saddOne s1 (interestKey WILDCARD) x else s1)
            (userInterestsKey u) = [] := by
          by_cases hx : x ≠ ""
          · rw [if_pos hx]
            exact saddOne_nil_ne s1 _ x _
              (Ne.symm (interestKey_ne_userInterestsKey WILDCARD u)) hs1
          · rw [if_neg hx]
            exact hs1
        rw [hnil2]
        rfl

theorem wildcardTail_waiting_uinterests (url u : String) (st s2 : RedisState)
    (h : wildcardTail url u st = (Outcome.waiting, s2))
    (hnil : smembers st (userInterestsKey u) = []) :
    smembers s2 (userInterestsKey u) = [WILDCARD] := by
  unfold wildcardTail at h
  cases hscan : scanAll u (smembers st allInterestsKey) st with
  | found x c st2 =>
    rw [hscan] at h
    exact absurd (congrArg Prod.fst h) (by simp [pairForm])
  | exhausted st2 =>
    rw [hscan] at h
    dsimp only at h
    have hst2 : smembers st2 (userInterestsKey u) = [] := by
      have htmp := scanAll_nil u u (smembers st allInterestsKey) st hnil
      rw [hscan] at htmp
      exact htmp
    have h2 := congrArg Prod.snd h
    dsimp only at h2
    rw [← h2]
    rw [smembers_saddOne, if_neg (userInterestsKey_ne_allInterestsKey u),
      smembers_saddOne, if_pos rfl]
    have hbase : smembers (saddOne st2 (interestKey WILDCARD) u)
        (userInterestsKey u) = [] :=
      saddOne_nil_ne st2 _ u _
        (Ne.symm (interestKey_ne_userInterestsKey WILDCARD u)) hst2
    rw [hbase]
    simp

/-- Claim C1 (amended): queue keys upper-case the tag, so tags equal up to
letter case share a single waiting queue - but nothing else is normalized:
the common-interest intersection of the direct-match path compares the
stored tag strings exactly (it is empty unless some tag is shared verbatim),
and the tag set stored under `user_interests:<userId>` on the enqueue path
consists of the tags exactly as the route parsed them (trimmed, de-duplicated,
NOT upper-cased) - the wildcard path storing the reserved wildcard token. -/
theorem c1_case_sensitivity :
    (∀ mi ci : List String,
      commonInterestsOf mi ci = [] ↔ ∀ t ∈ mi, t ∉ ci) ∧
    (∀ i j : String,
      jsToUpper i = jsToUpper j → interestKey i = interestKey j) ∧
    (∀ url u : String, ∀ interests shuffled : List String, ∀ now : Nat,
      ∀ s s2 : RedisState,
      smembers s (userInterestsKey u) = [] →
      findOrQueueUser url u interests shuffled now s = (Outcome.waiting, s2) →
      smembers s2 (userInterestsKey u) =
        sdedup (if interests = [] then [WILDCARD] else shuffled)) := by
  refine ⟨?_, ?_, ?_⟩
  · intro mi ci
    unfold commonInterestsOf
    constructor
    · intro h t ht hc
      have := List.filter_eq_nil.mp h t ht
      simp at this
      exact this hc
    · intro h
      apply List.filter_eq_nil.mpr
      intro t ht
      simp
      exact h t ht
  · intro i j h
    unfold interestKey
    rw [h]
  · intro url u interests shuffled now s s2 hQ h
    have hQE : smembers (endChatSession s u).2 (userInterestsKey u) = [] :=
      (endChatSession_smembers s u _).trans hQ
    unfold findOrQueueUser at h
    by_cases hi : interests = []
    · rw [if_pos hi] at h
      rw [if_pos hi]
      cases hsp : spop (endChatSession s u).2 (interestKey WILDCARD) with
      | mk ox s1 =>
        rw [hsp] at h
        have hs1 : smembers s1 (userInterestsKey u) = [] :=
          spop_nil_preserved _ _ _ ox s1 hsp hQE
        rcases ox with _ | x
        · rw [wildcardTail_waiting_uinterests url u s1 s2 h hs1]
          rfl
        · dsimp only at h
          by_cases hc : x ≠ "" ∧ x ≠ u
          · rw [if_pos hc] at h
            exact absurd (congrArg Prod.fst h) (by simp [pairForm])
          · rw [if_neg hc] at h
            have hnil2 : smembers
                (if x ≠ "" then saddOne s1 (interestKey WILDCARD) x else s1)
                (userInterestsKey u) = [] := by
              by_cases hx : x ≠ ""
              · rw [if_pos hx]
                exact saddOne_nil_ne s1 _ x _
                  (Ne.symm (interestKey_ne_userInterestsKey WILDCARD u)) hs1
              · rw [if_neg hx]
                exact hs1
            rw [wildcardTail_waiting_uinterests url u _ s2 h hnil2]
            rfl
    · rw [if_neg hi] at h
      rw [if_neg hi]
      dsimp only at h
      have hQR : smembers
          (recordPopularity (endChatSession s u).2 u now interests)
          (userInterestsKey u) = [] :=
        (recordPopularity_smembers interests _ u now _
          (userInterestsKey_ne_allInterestsKey u)).trans hQE
      cases hscan : scanOwn u shuffled shuffled
          (recordPopularity (endChatSession s u).2 u now interests) with
      | found x c st =>
        rw [hscan] at h
        exact absurd (congrArg Prod.fst h) (by simp [pairForm])
      | exhausted st =>
        rw [hscan] at h
        dsimp only at h
        have hst : smembers st (userInterestsKey u) = [] := by
          have htmp := scanOwn_nil u u shuffled shuffled
            (recordPopularity (endChatSession s u).2 u now interests) hQR
          rw [hscan] at htmp
          exact htmp
        exact standardTail_waiting_uinterests url u shuffled st s2 h hst

/-- A store with waiter `B` enqueued under the canonical queue key
`interest:MUSIC` with stored tag form `MUSIC`. -/
def c1State : RedisState :=
  ⟨[("interest:MUSIC", ["B"]), ("user_interests:B", ["MUSIC"]),
    ("all_interests", ["MUSIC"])], [], [], []⟩

/-- Counterexample to claim C1 as stated: the caller's tag `music` and the
waiter's stored tag `MUSIC` agree up to case, the caller even pops the
waiter from the shared upper-cased queue, yet the common-interest
intersection is empty, no match forms (the call returns `Waiting`), and the
set stored under `user_interests:A` is the raw `music` - not its
upper-cased canonical form. -/
theorem c1_counterexample :
    sameTagModCase "music" "MUSIC" = true ∧
    commonInterestsOf ["MUSIC"] ["music"] = [] ∧
    (findOrQueueUser "u0" "A" ["music"] ["music"] 5 c1State).fst =
      Outcome.waiting ∧
    smembers (findOrQueueUser "u0" "A" ["music"] ["music"] 5 c1State).snd
      (userInterestsKey "A") = ["music"] ∧
    ["music"] ≠ [jsToUpper "music"] :=
  ⟨by decide, by decide, by decide, by decide, by decide⟩

/-- Witness for claim C1 (amended): the concrete enqueue run stores the raw
tag form. -/
theorem c1_witness :
    smembers (findOrQueueUser "u0" "A" ["music"] ["music"] 5 c1State).snd
      (userInterestsKey "A") = ["music"] :=
  (c1_case_sensitivity.2.2 "u0" "A" ["music"] ["music"] 5 c1State
    (findOrQueueUser "u0" "A" ["music"] ["music"] 5 c1State).snd (by decide)
    rfl).trans (by decide)

theorem alookup_eq_none_of_not_mem_keys {α : Type} (l : List (String × α))
    (k : String) (h : k ∉ l.map Prod.fst) : alookup l k = none := by
  induction l with
  | nil => rfl
  | cons p rest ih =>
    simp only [List.map_cons, List.mem_cons] at h
    push_neg at h
    simp only [alookup, if_neg (fun he : p.1 = k => h.1 he.symm)]
    · exact ih h.2

theorem zmembers_zremUpTo (s : RedisState) (k : String) (hi : Nat)
    (q : String) :
    zmembers (zremUpTo s k hi) q =
      if q = k then (zmembers s k).filter (fun p => hi < p.2)
      else zmembers s q := by
  unfold zremUpTo
  dsimp only
  rcases eq_or_ne q k with he | he
  · subst he
    rw [if_pos rfl]
    split
    next h =>
      unfold zmembers
      dsimp only
      rw [alookup_adel, if_pos rfl]
      exact h.symm
    next h =>
      unfold zmembers
      dsimp only
      rw [alookup_aset]
      simp
  · rw [if_neg he]
    split
    next h =>
      unfold zmembers
      dsimp only
      rw [alookup_adel, if_neg he]
    next h =>
      unfold zmembers
      dsimp only
      rw [alookup_aset, if_neg he]

theorem fold_zrem (keys : List String) (s : RedisState) (hi : Nat)
    (hnd : keys.Nodup) (q : String) :
    zmembers (keys.foldl (fun st k => zremUpTo st k hi) s) q =
      if q ∈ keys then (zmembers s q).filter (fun p => hi < p.2)
      else zmembers s q := by
  induction keys generalizing s with
  | nil => simp
  | cons k0 rest ih =>
    obtain ⟨hk0, hrest⟩ := List.nodup_cons.mp hnd
    simp only [List.foldl_cons]
    rw [ih _ hrest]
    by_cases hq : q ∈ rest
    · have hne : q ≠ k0 := fun he => hk0 (he ▸ hq)
      rw [if_pos hq, if_pos (List.mem_cons_of_mem _ hq),
        zmembers_zremUpTo, if_neg hne]
    · rw [if_neg hq, zmembers_zremUpTo]
      rcases eq_or_ne q k0 with he | he
      · rw [if_pos he, if_pos (he ▸ List.mem_cons_self k0 rest)]
        rw [he]
      · rw [if_neg he, if_neg (by simp [he, hq])]

theorem insertByCountDesc_mem (x y : String × Nat) (l : List (String × Nat)) :
    y ∈ insertByCountDesc x l ↔ y = x ∨ y ∈ l := by
  induction l with
  | nil => simp [insertByCountDesc]
  | cons z zs ih =>
    unfold insertByCountDesc
    by_cases h : z.2 < x.2
    · simp [h]
    · simp [h, ih]
      tauto

theorem insertByCountDesc_pairwise (x : String × Nat)
    (l : List (String × Nat))
    (h : List.Pairwise (fun a b : String × Nat => b.2 ≤ a.2) l) :
    List.Pairwise (fun a b : String × Nat => b.2 ≤ a.2)
      (insertByCountDesc x l) := by
  induction l with
  | nil => simp [insertByCountDesc]
  | cons y ys ih =>
    obtain ⟨hy, hys⟩ := List.pairwise_cons.mp h
    unfold insertByCountDesc
    by_cases hcmp : y.2 < x.2
    · rw [if_pos hcmp]
      refine List.pairwise_cons.mpr ⟨?_, h⟩
      intro z hz
      rcases List.mem_cons.mp hz with he | hz2
      · subst he; exact Nat.le_of_lt hcmp
      · exact Nat.le_trans (hy z hz2) (Nat.le_of_lt hcmp)
    · rw [if_neg hcmp]
      refine List.pairwise_cons.mpr ⟨?_, ih hys⟩
      intro z hz
      rcases (insertByCountDesc_mem x z ys).mp hz with he | hz2
      · subst he; exact Nat.le_of_not_lt hcmp
      · exact hy z hz2

theorem sortByCountDesc_pairwise_general (l acc : List (String × Nat))
    (h : List.Pairwise (fun a b : String × Nat => b.2 ≤ a.2) acc) :
    List.Pairwise (fun a b : String × Nat => b.2 ≤ a.2)
      (l.foldl (fun acc x => insertByCountDesc x acc) acc) := by
  induction l generalizing acc with
  | nil => exact h
  | cons x rest ih => exact ih _ (insertByCountDesc_pairwise x acc h)

theorem sortByCountDesc_pairwise (l : List (String × Nat)) :
    List.Pairwise (fun a b : String × Nat => b.2 ≤ a.2)
      (sortByCountDesc l) :=
  sortByCountDesc_pairwise_general l [] List.Pairwise.nil

theorem sortByCountDesc_mem_general (l acc : List (String × Nat))
    (y : String × Nat) :
    y ∈ l.foldl (fun acc x => insertByCountDesc x acc) acc ↔
      y ∈ acc ∨ y ∈ l := by
  induction l generalizing acc with
  | nil => simp
  | cons x rest ih =>
    simp only [List.foldl_cons, ih, insertByCountDesc_mem, List.mem_cons]
    tauto

theorem sortByCountDesc_mem (l : List (String × Nat)) (y : String × Nat) :
    y ∈ sortByCountDesc l ↔ y ∈ l := by
  unfold sortByCountDesc
  rw [sortByCountDesc_mem_general]
  simp

theorem take_complete {α : Type} (l : List α) (n : Nat)
    (hlen : (l.take n).length < n) (y : α) (hy : y ∈ l) : y ∈ l.take n := by
  have hll : l.length < n := by
    rw [List.length_take] at hlen
    omega
  rw [List.take_of_length_le (Nat.le_of_lt hll)]
  exact hy

theorem take_maximal {α : Type} (R : α → α → Prop) (l : List α) (n : Nat)
    (h : List.Pairwise R l) (y : α) (hy : y ∈ l) (hny : y ∉ l.take n) :
    ∀ q ∈ l.take n, R q y := by
  have hsplit := List.take_append_drop n l
  rw [← hsplit] at h hy
  rcases List.mem_append.mp hy with h1 | h2
  · exact absurd h1 hny
  · intro q hq
    exact (List.pairwise_append.mp h).2.2 q hq y h2

/-- Claim C4 (amended): `getPopularInterests(topN)` removes from each
`popular:*` sorted set exactly the members whose score is at most
`now - 10 min` (the removal is inclusive of the boundary, not strict),
applies no deny-list filter (none exists in the code or its configuration),
and returns the top `topN` surviving (tag, count) pairs - those with
positive post-trim cardinality - sorted by count descending: at most `topN`
of them, every surviving pair when fewer than `topN` survive, and a
surviving pair is only omitted when its count is at most every returned
count. -/
theorem c4_popular_amended (topN now : Nat) (s : RedisState)
    (hnd : (s.zsets.map Prod.fst).Nodup) :
    (∀ k, startsWithChars "popular:".data k.data = true →
      zmembers (getPopularInterests topN now s).2 k =
        (zmembers s k).filter (fun p => now - windowMs < p.2)) ∧
    List.Pairwise (fun a b : String × Nat => b.2 ≤ a.2)
      (getPopularInterests topN now s).1 ∧
    (getPopularInterests topN now s).1.length ≤ topN ∧
    (∀ p ∈ (getPopularInterests topN now s).1,
      0 < p.2 ∧ ∃ k ∈ popKeys s, p.1 = splitTag k ∧
        p.2 = zcard (getPopularInterests topN now s).2 k) ∧
    ((getPopularInterests topN now s).1.length < topN →
      ∀ k ∈ popKeys s, 0 < zcard (getPopularInterests topN now s).2 k →
        (splitTag k, zcard (getPopularInterests topN now s).2 k) ∈
          (getPopularInterests topN now s).1) ∧
    (∀ k ∈ popKeys s, 0 < zcard (getPopularInterests topN now s).2 k →
      (splitTag k, zcard (getPopularInterests topN now s).2 k) ∉
        (getPopularInterests topN now s).1 →
      ∀ q ∈ (getPopularInterests topN now s).1,
        zcard (getPopularInterests topN now s).2 k ≤ q.2) := by
  unfold getPopularInterests
  by_cases hk : popKeys s = []
  · rw [if_pos hk]
    refine ⟨?_, List.Pairwise.nil, by simp, by simp, ?_, ?_⟩
    · intro k hks
      have hnotin : k ∉ s.zsets.map Prod.fst := by
        intro hmem
        have hin : k ∈ popKeys s := List.mem_filter.mpr ⟨hmem, hks⟩
        rw [hk] at hin
        cases hin
      have hz : zmembers s k = [] := by
        unfold zmembers
        rw [alookup_eq_none_of_not_mem_keys _ _ hnotin]
        rfl
      rw [hz]
      rfl
    · intro _ k hkm
      rw [hk] at hkm
      cases hkm
    · intro k hkm
      rw [hk] at hkm
      cases hkm
  · rw [if_neg hk]
    dsimp only
    have hndk : (popKeys s).Nodup := List.Nodup.filter _ (hnd)
    have hfold : ∀ q, zmembers ((popKeys s).foldl
        (fun st k => zremUpTo st k (now - windowMs)) s) q =
        if q ∈ popKeys s
        then (zmembers s q).filter (fun p => now - windowMs < p.2)
        else zmembers s q :=
      fun q => fold_zrem (popKeys s) s (now - windowMs) hndk q
    refine ⟨?_, ?_, ?_, ?_, ?_, ?_⟩
    · intro k hks
      rw [hfold k]
      by_cases hmem : k ∈ popKeys s
      · rw [if_pos hmem]
      · rw [if_neg hmem]
        have hnotin : k ∉ s.zsets.map Prod.fst := by
          intro hmem2
          exact hmem (List.mem_filter.mpr ⟨hmem2, hks⟩)
        have hz : zmembers s k = [] := by
          unfold zmembers
          rw [alookup_eq_none_of_not_mem_keys _ _ hnotin]
          rfl
        rw [hz]
        rfl
    · exact List.Pairwise.sublist (List.take_sublist topN _)
        (sortByCountDesc_pairwise _)
    · simp [List.length_take]
    · intro p hp
      have hp2 := (sortByCountDesc_mem _ p).mp (List.mem_of_mem_take hp)
      obtain ⟨k, hkmem, heq⟩ := List.mem_filterMap.mp hp2
      split at heq
      next hpos =>
        obtain rfl := Option.some.inj heq
        exact ⟨hpos, k, hkmem, rfl, rfl⟩
      next => cases heq
    · intro hlen k hkmem hpos
      refine take_complete _ topN hlen _ ?_
      refine (sortByCountDesc_mem _ _).mpr (List.mem_filterMap.mpr
        ⟨k, hkmem, ?_⟩)
      dsimp only
      rw [if_pos hpos]
    · intro k hkmem hpos hnotin q hq
      have hmem2 : (splitTag k, zcard ((popKeys s).foldl
          (fun st k => zremUpTo st k (now - windowMs)) s) k) ∈
          sortByCountDesc ((popKeys s).filterMap (fun k =>
            let c := zcard ((popKeys s).foldl
              (fun st k => zremUpTo st k (now - windowMs)) s) k
            if 0 < c then some (splitTag k, c) else none)) := by
        refine (sortByCountDesc_mem _ _).mpr (List.mem_filterMap.mpr
          ⟨k, hkmem, ?_⟩)
        dsimp only
        rw [if_pos hpos]
      exact take_maximal (fun a b : String × Nat => b.2 ≤ a.2) _ topN
        (sortByCountDesc_pairwise _) _ hmem2 hnotin q hq

/-- A store with a member exactly at the window boundary under `popular:X`
and a fresh member under `popular:Y`, the spec's deny-list set to `[Y]`. -/
def c4State : RedisState :=
  ⟨[], [], [],
   [("popular:X", [("a", 1000000)]), ("popular:Y", [("b", 1600000)])]⟩

/-- Counterexample to claim C4 as stated: at `now = 1 600 000` the window
floor is `1 000 000`; the spec-modelled operation (strict removal plus the
configured deny-list `[Y]`) keeps the boundary member and reports
`[(X, 1)]`, while the code removes the boundary member (inclusive removal),
applies no deny-list, and reports `[(Y, 1)]`. -/
theorem c4_counterexample :
    (getPopularInterests 8 1600000 c4State).fst = [("Y", 1)] ∧
    (specGetPopularInterests ["Y"] 8 1600000 c4State).fst = [("X", 1)] ∧
    (getPopularInterests 8 1600000 c4State).fst ≠
      (specGetPopularInterests ["Y"] 8 1600000 c4State).fst :=
  ⟨by decide, by decide, by decide⟩

/-- Witness for claim C4 (amended) at the concrete boundary store: the
boundary member is trimmed, the result is within the size bound, and the
surviving pair under `popular:Y` is returned (the result is shorter than
`topN`, so every surviving pair appears). -/
theorem c4_witness :
    zmembers (getPopularInterests 8 1600000 c4State).2 "popular:X" =
      (zmembers c4State "popular:X").filter
        (fun p => 1600000 - windowMs < p.2) ∧
    (getPopularInterests 8 1600000 c4State).1.length ≤ 8 ∧
    (splitTag "popular:Y",
      zcard (getPopularInterests 8 1600000 c4State).2 "popular:Y") ∈
        (getPopularInterests 8 1600000 c4State).1 :=
  ⟨(c4_popular_amended 8 1600000 c4State (by decide)).1 "popular:X"
    (by decide),
   (c4_popular_amended 8 1600000 c4State (by decide)).2.2.1,
   (c4_popular_amended 8 1600000 c4State (by decide)).2.2.2.2.1 (by decide)
     "popular:Y" (by decide) (by decide)⟩
